import Mathlib

/-!
Verification of the speyl spell-checker core (Go package `speyl` and
`speyl/algorithms`).

Modelling conventions:
* A Go string is modelled by its sequence of Unicode scalar values,
  `GoStr := List Char`.  Go indexes strings by UTF-8 bytes, so the
  byte-oriented source functions operate on `utf8Str s`, the UTF-8 byte
  sequence of `s`; the rune-oriented `DynamicLevenshtein` (which converts
  its arguments with `[]rune`) operates on the `List Char` directly.
* Go `float32` arithmetic is modelled by exact rational arithmetic (`ℚ`).
* The memoization cache of `DamerauLevenshtein` (a Go `map[string]int`)
  is modelled by an association list consulted front-first; insertion
  conses to the front, which gives the same lookup semantics as map
  overwrite.
-/

/-- A Go string, as its sequence of Unicode scalar values. -/
abbrev GoStr := List Char

/-- The UTF-8 encoding of one Unicode scalar value: the bytes Go stores
for it inside a string. -/
def utf8Char (c : Char) : List Nat :=
  let n := c.toNat
  if n < 128 then [n]
  else if n < 2048 then [192 + n / 64, 128 + n % 64]
  else if n < 65536 then [224 + n / 4096, 128 + (n / 64) % 64, 128 + n % 64]
  else [240 + n / 262144, 128 + (n / 4096) % 64, 128 + (n / 64) % 64, 128 + n % 64]

/-- The UTF-8 byte sequence of a Go string: what `len(s)` and `s[i]`
see in Go. -/
def utf8Str (s : GoStr) : List Nat :=
  s.flatMap utf8Char

/-- The `Suggestion` struct of `algorithms/utilities.go`: a likelihood
(Go `float32`, modelled as `ℚ`) and the suggested word. -/
structure Suggestion where
  likelihood : ℚ
  word : GoStr
deriving DecidableEq

/-- One iteration of the loop of `SuggestWord` in `algorithms/utilities.go`:
compute the likelihood of the current candidate and replace the running
best exactly when the new likelihood is strictly greater. -/
def suggestStep (inputString : GoStr) (algorithm : GoStr → GoStr → ℚ)
    (best : Suggestion) (currentString : GoStr) : Suggestion :=
  let likelihood := algorithm inputString currentString
  if best.likelihood < likelihood then ⟨likelihood, currentString⟩ else best

/-- Model of `SuggestWord` in `algorithms/utilities.go`: scan the
candidates in order starting from likelihood `0` and the empty word. -/
def SuggestWord (inputString : GoStr) (validStrings : List GoStr)
    (algorithm : GoStr → GoStr → ℚ) : Suggestion :=
  validStrings.foldl (suggestStep inputString algorithm) ⟨0, []⟩

/-- Model of `SuggestWordWithThreshold` in `algorithms/utilities.go`:
delegate to `SuggestWord` and keep the word only when its likelihood is
strictly above the threshold. -/
def SuggestWordWithThreshold (inputString : GoStr) (validStrings : List GoStr)
    (threshold : ℚ) (algorithm : GoStr → GoStr → ℚ) : GoStr :=
  let suggested := SuggestWord inputString validStrings algorithm
  if ¬ (threshold < suggested.likelihood) then [] else suggested.word

lemma suggestStep_likelihood (q : GoStr) (fn : GoStr → GoStr → ℚ)
    (b : Suggestion) (c : GoStr) :
    (suggestStep q fn b c).likelihood = max b.likelihood (fn q c) := by
  simp only [suggestStep]
  split
  · exact (max_eq_right (le_of_lt (by assumption))).symm
  · exact (max_eq_left (le_of_not_lt (by assumption))).symm

lemma suggestFold_likelihood (q : GoStr) (fn : GoStr → GoStr → ℚ) :
    ∀ (cs : List GoStr) (b : Suggestion),
      (List.foldl (suggestStep q fn) b cs).likelihood
        = (cs.map (fn q)).foldl max b.likelihood := by
  intro cs
  induction cs with
  | nil => intro b; rfl
  | cons c cs ih =>
    intro b
    simp only [List.foldl_cons, List.map_cons, ih, suggestStep_likelihood]

lemma suggestFold_first_max (q : GoStr) (fn : GoStr → GoStr → ℚ) :
    ∀ (cs : List GoStr) (b : Suggestion),
      (List.foldl (suggestStep q fn) b cs = b ∧ ∀ c ∈ cs, fn q c ≤ b.likelihood) ∨
      (∃ i, ∃ h : i < cs.length,
        (List.foldl (suggestStep q fn) b cs).word = cs.get ⟨i, h⟩ ∧
        fn q (cs.get ⟨i, h⟩) = (List.foldl (suggestStep q fn) b cs).likelihood ∧
        b.likelihood < (List.foldl (suggestStep q fn) b cs).likelihood ∧
        ∀ j (hj : j < i),
          fn q (cs.get ⟨j, hj.trans h⟩)
            < (List.foldl (suggestStep q fn) b cs).likelihood) := by
  intro cs
  induction cs with
  | nil => intro b; left; exact ⟨rfl, by simp⟩
  | cons c cs ih =>
    intro b
    by_cases hc : b.likelihood < fn q c
    · have hstep : suggestStep q fn b c = ⟨fn q c, c⟩ := by
        simp [suggestStep, hc]
      rcases ih ⟨fn q c, c⟩ with ⟨heq, _⟩ | ⟨i, h, hw, hs, hlt, hprev⟩
      · right
        refine ⟨0, by simp, ?_, ?_, ?_, ?_⟩
        · simp [List.foldl_cons, hstep, heq]
        · simp [List.foldl_cons, hstep, heq]
        · simp [List.foldl_cons, hstep, heq, hc]
        · intro j hj; omega
      · right
        refine ⟨i + 1, by simpa using Nat.succ_lt_succ h, ?_, ?_, ?_, ?_⟩
        · simpa [List.foldl_cons, hstep] using hw
        · simpa [List.foldl_cons, hstep] using hs
        · have : b.likelihood < (⟨fn q c, c⟩ : Suggestion).likelihood := hc
          calc b.likelihood < (⟨fn q c, c⟩ : Suggestion).likelihood := hc
            _ < (List.foldl (suggestStep q fn) b (c :: cs)).likelihood := by
                simpa [List.foldl_cons, hstep] using hlt
        · intro j hj
          match j, hj with
          | 0, _ =>
            have : (⟨fn q c, c⟩ : Suggestion).likelihood
                < (List.foldl (suggestStep q fn) (⟨fn q c, c⟩ : Suggestion) cs).likelihood := hlt
            simpa [List.foldl_cons, hstep] using this
          | j + 1, hj =>
            have hj2 : j < i := by omega
            have := hprev j hj2
            simpa [List.foldl_cons, hstep] using this
    · have hstep : suggestStep q fn b c = b := by
        simp [suggestStep, hc]
      rcases ih b with ⟨heq, hall⟩ | ⟨i, h, hw, hs, hlt, hprev⟩
      · left
        constructor
        · simp [List.foldl_cons, hstep, heq]
        · intro c2 hc2
          rcases List.mem_cons.mp hc2 with rfl | hmem
          · exact le_of_not_lt hc
          · exact hall c2 hmem
      · right
        refine ⟨i + 1, by simpa using Nat.succ_lt_succ h, ?_, ?_, ?_, ?_⟩
        · simpa [List.foldl_cons, hstep] using hw
        · simpa [List.foldl_cons, hstep] using hs
        · simpa [List.foldl_cons, hstep] using hlt
        · intro j hj
          match j, hj with
          | 0, _ =>
            have hb : fn q c ≤ b.likelihood := le_of_not_lt hc
            have : b.likelihood < (List.foldl (suggestStep q fn) b cs).likelihood := hlt
            have hlt2 : fn q c < (List.foldl (suggestStep q fn) b cs).likelihood :=
              lt_of_le_of_lt hb this
            simpa [List.foldl_cons, hstep] using hlt2
          | j + 1, hj =>
            have hj2 : j < i := by omega
            have := hprev j hj2
            simpa [List.foldl_cons, hstep] using this

/-- C1.  `SuggestWord` scans the candidates in order from the initial best
`{likelihood: 0, word: ""}` and updates it only on a strictly greater
score: it equals the left fold of that update step; on an empty candidate
list it returns the initial best; its likelihood is the maximum of `0` and
all candidate scores; when no candidate scores strictly above `0` the
initial best survives unchanged; and when the final likelihood is positive
the returned word is the first candidate attaining the maximal score, every
earlier candidate scoring strictly less (so later equal-or-lower scores
never replace it). -/
theorem suggestWord_scan_spec (q : GoStr) (fn : GoStr → GoStr → ℚ) (cs : List GoStr) :
    SuggestWord q cs fn = cs.foldl (suggestStep q fn) ⟨0, []⟩ ∧
    SuggestWord q [] fn = ⟨0, []⟩ ∧
    (SuggestWord q cs fn).likelihood = (cs.map (fn q)).foldl max 0 ∧
    ((∀ c ∈ cs, fn q c ≤ 0) → SuggestWord q cs fn = ⟨0, []⟩) ∧
    (0 < (SuggestWord q cs fn).likelihood →
      ∃ i, ∃ h : i < cs.length,
        (SuggestWord q cs fn).word = cs.get ⟨i, h⟩ ∧
        fn q (cs.get ⟨i, h⟩) = (SuggestWord q cs fn).likelihood ∧
        ∀ j (hj : j < i),
          fn q (cs.get ⟨j, hj.trans h⟩) < (SuggestWord q cs fn).likelihood) := by
  refine ⟨rfl, rfl, ?_, ?_, ?_⟩
  · simpa using suggestFold_likelihood q fn cs ⟨0, []⟩
  · intro hall
    rcases suggestFold_first_max q fn cs ⟨0, []⟩ with ⟨heq, _⟩ | ⟨i, h, _, hs, hlt, _⟩
    · exact heq
    · exfalso
      have h1 : fn q (cs.get ⟨i, h⟩) ≤ 0 := hall _ (cs.get_mem i h)
      have h2 : (0 : ℚ) < (List.foldl (suggestStep q fn) ⟨0, []⟩ cs).likelihood := hlt
      rw [hs] at h1
      exact absurd h2 (not_lt.mpr h1)
  · intro hpos
    rcases suggestFold_first_max q fn cs ⟨0, []⟩ with ⟨heq, _⟩ | ⟨i, h, hw, hs, _, hprev⟩
    · exfalso
      have : (SuggestWord q cs fn).likelihood = 0 := by
        simp [SuggestWord, heq]
      rw [this] at hpos
      exact lt_irrefl 0 hpos
    · exact ⟨i, h, hw, hs, hprev⟩

/-- Witness for C1: on the concrete input where every candidate scores at
or below zero the initial best is returned, and on a concrete input with a
positive best score the first maximal candidate is returned. -/
theorem suggestWord_scan_spec_witness :
    SuggestWord [] [[Char.ofNat 97]] (fun _ _ => (-1 : ℚ)) = ⟨0, []⟩ ∧
    (∃ i, ∃ h : i < ([[Char.ofNat 97]] : List GoStr).length,
      (SuggestWord [] [[Char.ofNat 97]] (fun _ c => (c.length : ℚ))).word
        = ([[Char.ofNat 97]] : List GoStr).get ⟨i, h⟩ ∧
      (fun (_ : GoStr) (c : GoStr) => (c.length : ℚ)) []
          (([[Char.ofNat 97]] : List GoStr).get ⟨i, h⟩)
        = (SuggestWord [] [[Char.ofNat 97]] (fun _ c => (c.length : ℚ))).likelihood ∧
      ∀ j (hj : j < i),
        (fun (_ : GoStr) (c : GoStr) => (c.length : ℚ)) []
            (([[Char.ofNat 97]] : List GoStr).get ⟨j, hj.trans h⟩)
          < (SuggestWord [] [[Char.ofNat 97]] (fun _ c => (c.length : ℚ))).likelihood) := by
  constructor
  · exact (suggestWord_scan_spec [] (fun _ _ => (-1 : ℚ)) [[Char.ofNat 97]]).2.2.2.1
      (by intro c _; norm_num)
  · exact (suggestWord_scan_spec [] (fun _ c => (c.length : ℚ)) [[Char.ofNat 97]]).2.2.2.2
      (by norm_num [SuggestWord, suggestStep])

/-- C2.  `SuggestWordWithThreshold` returns the word of the unique
`SuggestWord` result exactly when that likelihood is strictly greater than
the threshold, and the empty string otherwise; in particular a best
likelihood exactly equal to the threshold yields the empty string. -/
theorem suggestWordWithThreshold_spec (q : GoStr) (cs : List GoStr)
    (t : ℚ) (fn : GoStr → GoStr → ℚ) :
    SuggestWordWithThreshold q cs t fn
      = (if t < (SuggestWord q cs fn).likelihood then (SuggestWord q cs fn).word else []) ∧
    ((SuggestWord q cs fn).likelihood = t → SuggestWordWithThreshold q cs t fn = []) := by
  constructor
  · simp only [SuggestWordWithThreshold]
    by_cases h : t < (SuggestWord q cs fn).likelihood <;> simp [h]
  · intro heq
    simp [SuggestWordWithThreshold, heq]

/-- Witness for C2: with a single candidate scoring exactly `1/2` and the
threshold also `1/2`, the result is the empty string. -/
theorem suggestWordWithThreshold_spec_witness :
    SuggestWordWithThreshold [] [[Char.ofNat 97]] (1/2) (fun _ _ => (1/2 : ℚ)) = [] := by
  exact (suggestWordWithThreshold_spec [] [[Char.ofNat 97]] (1/2) (fun _ _ => (1/2 : ℚ))).2
    (by norm_num [SuggestWord, suggestStep])

lemma suggestFold_invariant (q : GoStr) (fn : GoStr → GoStr → ℚ) :
    ∀ (cs : List GoStr) (b : Suggestion),
      List.foldl (suggestStep q fn) b cs = b ∨
      ((List.foldl (suggestStep q fn) b cs).word ∈ cs ∧
        (List.foldl (suggestStep q fn) b cs).likelihood
          = fn q (List.foldl (suggestStep q fn) b cs).word ∧
        b.likelihood < (List.foldl (suggestStep q fn) b cs).likelihood) := by
  intro cs
  induction cs with
  | nil => intro b; left; rfl
  | cons c cs ih =>
    intro b
    by_cases hc : b.likelihood < fn q c
    · have hstep : suggestStep q fn b c = ⟨fn q c, c⟩ := by simp [suggestStep, hc]
      rcases ih ⟨fn q c, c⟩ with heq | ⟨hmem, hfn, hlt⟩
      · right
        refine ⟨?_, ?_, ?_⟩
        · simp [List.foldl_cons, hstep, heq]
        · simp [List.foldl_cons, hstep, heq]
        · simp [List.foldl_cons, hstep, heq, hc]
      · right
        refine ⟨?_, ?_, ?_⟩
        · simp only [List.foldl_cons, hstep]
          exact List.mem_cons_of_mem c hmem
        · simpa [List.foldl_cons, hstep] using hfn
        · have : (⟨fn q c, c⟩ : Suggestion).likelihood
              < (List.foldl (suggestStep q fn) (⟨fn q c, c⟩ : Suggestion) cs).likelihood := hlt
          simp only [List.foldl_cons, hstep]
          exact lt_trans hc this
    · have hstep : suggestStep q fn b c = b := by simp [suggestStep, hc]
      rcases ih b with heq | ⟨hmem, hfn, hlt⟩
      · left; simp [List.foldl_cons, hstep, heq]
      · right
        refine ⟨?_, ?_, ?_⟩
        · simp only [List.foldl_cons, hstep]
          exact List.mem_cons_of_mem c hmem
        · simpa [List.foldl_cons, hstep] using hfn
        · simpa [List.foldl_cons, hstep] using hlt

/-- C10.  The suggestion returned by `SuggestWord` has a word that is
either empty or one of the candidates, and whenever the word is non-empty
the likelihood is strictly positive and equals the similarity of the query
with that word. -/
theorem suggestWord_invariant (q : GoStr) (cs : List GoStr) (fn : GoStr → GoStr → ℚ) :
    ((SuggestWord q cs fn).word = [] ∨ (SuggestWord q cs fn).word ∈ cs) ∧
    ((SuggestWord q cs fn).word ≠ [] →
      0 < (SuggestWord q cs fn).likelihood ∧
      (SuggestWord q cs fn).likelihood = fn q (SuggestWord q cs fn).word) := by
  rcases suggestFold_invariant q fn cs ⟨0, []⟩ with heq | ⟨hmem, hfn, hlt⟩
  · constructor
    · left; simp [SuggestWord, heq]
    · intro hne
      exfalso
      apply hne
      simp [SuggestWord, heq]
  · constructor
    · right; exact hmem
    · intro _
      exact ⟨hlt, hfn⟩

/-- Witness for C10: with one concrete candidate scoring `1`, the returned
word is non-empty, and the likelihood is positive and equals its score. -/
theorem suggestWord_invariant_witness :
    0 < (SuggestWord [] [[Char.ofNat 97]] (fun _ _ => (1 : ℚ))).likelihood ∧
    (SuggestWord [] [[Char.ofNat 97]] (fun _ _ => (1 : ℚ))).likelihood
      = (fun (_ : GoStr) (_ : GoStr) => (1 : ℚ)) []
          (SuggestWord [] [[Char.ofNat 97]] (fun _ _ => (1 : ℚ))).word := by
  exact (suggestWord_invariant [] [[Char.ofNat 97]] (fun _ _ => (1 : ℚ))).2
    (by norm_num [SuggestWord, suggestStep])

/-- The Levenshtein recurrence of `RecursiveLevenshtein` in the source,
generalized over the element type (Go compares string bytes; the dynamic
version compares runes). -/
def levRec [DecidableEq α] : List α → List α → Nat
  | [], targetString => targetString.length
  | a :: inputRest, [] => (a :: inputRest).length
  | a :: inputRest, b :: targetRest =>
    if a = b then levRec inputRest targetRest
    else 1 + min (levRec (a :: inputRest) targetRest)
      (min (levRec inputRest (b :: targetRest)) (levRec inputRest targetRest))
termination_by x y => x.length + y.length
decreasing_by all_goals (simp only [List.length_cons]; omega)

/-- Cell `(i, j)` of the Wagner-Fischer matrix built by
`DynamicLevenshtein`: row `0` and column `0` hold the base cases equal to
the index, and every other cell obeys the recurrence of the fill loop,
comparing the runes at positions `i - 1` and `j - 1`. -/
def levMatrix [DecidableEq α] (a b : List α) : Nat → Nat → Nat
  | 0, j => j
  | i + 1, 0 => i + 1
  | i + 1, j + 1 =>
    if a.get? i = b.get? j then levMatrix a b i j
    else 1 + min (levMatrix a b (i + 1) j)
      (min (levMatrix a b i (j + 1)) (levMatrix a b i j))
termination_by i j => i + j
decreasing_by all_goals omega

/-- Model of `DynamicLevenshtein`: converts both strings to runes and
returns the bottom-right cell of the Wagner-Fischer matrix. -/
def DynamicLevenshtein (inputString targetString : GoStr) : Nat :=
  levMatrix inputString targetString inputString.length targetString.length

/-- Model of `LevenshteinDistance`: delegates to `DynamicLevenshtein`. -/
def LevenshteinDistance (inputString targetString : GoStr) : Nat :=
  DynamicLevenshtein inputString targetString

/-- The recurrence of `IndelDistance` in `algorithms/jaro.go`, over an
arbitrary element type (Go runs it on the UTF-8 bytes): matching first
characters cost nothing, otherwise one plus the cheaper of deleting the
first input character or inserting the first target character. -/
def indelRec [DecidableEq α] : List α → List α → Nat
  | [], targetString => targetString.length
  | a :: inputRest, [] => (a :: inputRest).length
  | a :: inputRest, b :: targetRest =>
    if a = b then indelRec inputRest targetRest
    else min (1 + indelRec inputRest (b :: targetRest))
      (1 + indelRec (a :: inputRest) targetRest)
termination_by x y => x.length + y.length
decreasing_by all_goals (simp only [List.length_cons]; omega)

/-- Model of `IndelDistance`: the indel recurrence on the UTF-8 bytes of
the two strings (Go indexes the strings by bytes). -/
def IndelDistance (inputString targetString : GoStr) : Nat :=
  indelRec (utf8Str inputString) (utf8Str targetString)

/-- The memoization cache of `DamerauLevenshtein` (Go `map[string]int`
keyed by `a + "|" + b`), as an association list of byte-sequence keys. -/
abbrev DlCache := List (List Nat × Nat)

/-- Cache lookup, front-first; inserts cons to the front, so the newest
binding of a key wins, matching Go map overwrite semantics. -/
def dlLookup : DlCache → List Nat → Option Nat
  | [], _ => none
  | (k, v) :: rest, key => if k = key then some v else dlLookup rest key

/-- The inner memoized function `calculateDamerauLevenshteinDistance` of
`DamerauLevenshtein`, on UTF-8 byte sequences; `124` is the byte of the
separator character of the cache key `a + "|" + b`.  The cache is threaded
in Go evaluation order: insert, delete, replace, then the transposition
candidate; every return stores its value under the key. -/
def dlGo (a b : List Nat) (cache : DlCache) : Nat × DlCache :=
  let key := a ++ 124 :: b
  match dlLookup cache key with
  | some v => (v, cache)
  | none =>
    match a, b with
    | [], bb => (bb.length, (key, bb.length) :: cache)
    | x :: a1, [] => ((x :: a1).length, (key, (x :: a1).length) :: cache)
    | x :: a1, y :: b1 =>
      if x = y then
        let r := dlGo a1 b1 cache
        (r.1, (key, r.1) :: r.2)
      else
        let ins := dlGo (x :: a1) b1 cache
        let del := dlGo a1 (y :: b1) ins.2
        let rep := dlGo a1 b1 del.2
        let minCost := 1 + min ins.1 (min del.1 rep.1)
        match a1, b1 with
        | x1 :: a2, y1 :: b2 =>
          if x = y1 ∧ x1 = y then
            let tr := dlGo a2 b2 rep.2
            (min minCost (1 + tr.1), (key, min minCost (1 + tr.1)) :: tr.2)
          else (minCost, (key, minCost) :: rep.2)
        | _, _ => (minCost, (key, minCost) :: rep.2)
termination_by a.length + b.length
decreasing_by all_goals (simp only [List.length_cons]; omega)

/-- Model of `DamerauLevenshtein`: run the memoized inner function on the
UTF-8 bytes of the two strings with a fresh cache and return the value. -/
def DamerauLevenshtein (input target : GoStr) : Nat :=
  (dlGo (utf8Str input) (utf8Str target) []).1

/-- Reference Damerau-Levenshtein recurrence, as stated by the
specification: the unit-cost Levenshtein recurrence (matching first
characters cost nothing) extended with an adjacent-transposition candidate
of cost one plus the distance of the tails beyond the transposed pair
whenever the first two characters are swapped, taking the minimum over all
candidates.  It is the inner function of `DamerauLevenshtein` with the
memoization cache stripped. -/
def damerauRef [DecidableEq α] : List α → List α → Nat
  | [], b => b.length
  | a :: a1, [] => (a :: a1).length
  | x :: a1, y :: b1 =>
    if x = y then damerauRef a1 b1
    else
      let minCost := 1 + min (damerauRef (x :: a1) b1)
        (min (damerauRef a1 (y :: b1)) (damerauRef a1 b1))
      match a1, b1 with
      | x1 :: a2, y1 :: b2 =>
        if x = y1 ∧ x1 = y then min minCost (1 + damerauRef a2 b2) else minCost
      | _, _ => minCost
termination_by x y => x.length + y.length
decreasing_by all_goals (simp only [List.length_cons]; omega)

example : DamerauLevenshtein "a|".toList "|||".toList = 1 := by
  simp [DamerauLevenshtein, dlGo, dlLookup, utf8Str, utf8Char]
example : damerauRef (utf8Str "a|".toList) (utf8Str "|||".toList) = 2 := by
  simp [damerauRef, utf8Str, utf8Char]
example : DamerauLevenshtein "|||".toList "a|".toList = 2 := by
  simp [DamerauLevenshtein, dlGo, dlLookup, utf8Str, utf8Char]
example : IndelDistance [] ['é'] = 2 := by
  simp [IndelDistance, indelRec, utf8Str, utf8Char]
example : LevenshteinDistance ['é'] [] = 1 := by
  simp [LevenshteinDistance, DynamicLevenshtein, levMatrix]
example : DamerauLevenshtein ['é'] [] = 2 := by
  simp [DamerauLevenshtein, dlGo, dlLookup, utf8Str, utf8Char]
example : DamerauLevenshtein "a||".toList "||".toList = 2 := by
  simp [DamerauLevenshtein, dlGo, dlLookup, utf8Str, utf8Char]
example : LevenshteinDistance "a||".toList "||".toList = 1 := by
  simp [LevenshteinDistance, DynamicLevenshtein, levMatrix]

lemma levRec_nil_left [DecidableEq α] (y : List α) :
    levRec ([] : List α) y = y.length := by
  simp [levRec]

lemma levRec_nil_right [DecidableEq α] (x : List α) :
    levRec x ([] : List α) = x.length := by
  cases x <;> simp [levRec]

lemma levRec_cons_cons [DecidableEq α] (a b : α) (x y : List α) :
    levRec (a :: x) (b :: y) =
      if a = b then levRec x y
      else 1 + min (levRec (a :: x) y)
        (min (levRec x (b :: y)) (levRec x y)) := by
  simp only [levRec]

lemma levRec_le_sum [DecidableEq α] :
    ∀ (n : ℕ) (x y : List α), x.length + y.length ≤ n →
      levRec x y ≤ x.length + y.length := by
  intro n
  induction n with
  | zero =>
    intro x y h
    match x, y with
    | [], [] => simp [levRec_nil_left]
    | [], _ :: _ => simp at h
    | _ :: _, _ => simp at h
  | succ n ih =>
    intro x y h
    match x, y with
    | [], y => simp [levRec_nil_left]
    | a :: x2, [] => simp [levRec_nil_right]
    | a :: x2, b :: y2 =>
      rw [levRec_cons_cons]
      have h1 := ih (a :: x2) y2 (by simp at h ⊢; omega)
      have h2 := ih x2 (b :: y2) (by simp at h ⊢; omega)
      have h3 := ih x2 y2 (by simp at h ⊢; omega)
      simp only [List.length_cons] at h1 h2 h3 ⊢
      by_cases hab : a = b <;> simp [hab] <;> omega

lemma levRec_length_bound [DecidableEq α] :
    ∀ (n : ℕ) (x y : List α), x.length + y.length ≤ n →
      y.length ≤ x.length + levRec x y ∧ x.length ≤ y.length + levRec x y := by
  intro n
  induction n with
  | zero =>
    intro x y h
    match x, y with
    | [], [] => simp [levRec_nil_left]
    | [], _ :: _ => simp at h
    | _ :: _, _ => simp at h
  | succ n ih =>
    intro x y h
    match x, y with
    | [], y => simp [levRec_nil_left]
    | a :: x2, [] => simp [levRec_nil_right]
    | a :: x2, b :: y2 =>
      rw [levRec_cons_cons]
      have h1 := ih (a :: x2) y2 (by simp at h ⊢; omega)
      have h2 := ih x2 (b :: y2) (by simp at h ⊢; omega)
      have h3 := ih x2 y2 (by simp at h ⊢; omega)
      simp only [List.length_cons] at h1 h2 h3 ⊢
      by_cases hab : a = b <;> simp [hab] <;> omega

lemma levRec_cons_bounds [DecidableEq α] :
    ∀ (n : ℕ) (x y : List α), x.length + y.length ≤ n → ∀ c : α,
      levRec (c :: x) y ≤ 1 + levRec x y ∧
      levRec x y ≤ 1 + levRec (c :: x) y ∧
      levRec x (c :: y) ≤ 1 + levRec x y ∧
      levRec x y ≤ 1 + levRec x (c :: y) := by
  intro n
  induction n with
  | zero =>
    intro x y h c
    match x, y with
    | [], [] => simp [levRec_nil_left, levRec_nil_right]
    | [], _ :: _ => simp at h
    | _ :: _, _ => simp at h
  | succ n ih =>
    intro x y h c
    match x, y with
    | [], [] => simp [levRec_nil_left, levRec_nil_right]
    | [], d :: y2 =>
      refine ⟨?_, ?_, ?_, ?_⟩
      · rw [levRec_cons_cons]
        by_cases hcd : c = d
        · simp only [if_pos hcd, levRec_nil_left, List.length_cons]
          omega
        · simp only [if_neg hcd, levRec_nil_left, List.length_cons]
          omega
      · have h3 := (levRec_length_bound (1 + (y2.length + 1)) [c] (d :: y2)
          (by simp)).1
        simp only [levRec_nil_left, List.length_cons, List.length_nil] at h3 ⊢
        omega
      · simp only [levRec_nil_left, List.length_cons]
        omega
      · simp only [levRec_nil_left, List.length_cons]
        omega
    | a :: x2, [] =>
      refine ⟨?_, ?_, ?_, ?_⟩
      · simp only [levRec_nil_right, List.length_cons]
        omega
      · simp only [levRec_nil_right, List.length_cons]
        omega
      · rw [levRec_cons_cons]
        by_cases hac : a = c
        · simp only [if_pos hac, levRec_nil_right, levRec_nil_left, List.length_cons]
          omega
        · simp only [if_neg hac, levRec_nil_right, levRec_nil_left, List.length_cons]
          omega
      · have h3 := (levRec_length_bound ((x2.length + 1) + 1) (a :: x2) [c]
          (by simp)).2
        simp only [List.length_cons, List.length_nil, levRec_nil_right] at h3 ⊢
        omega
    | a :: x2, b :: y2 =>
      have hm1 : x2.length + (b :: y2).length ≤ n := by simp at h ⊢; omega
      have hm2 : (a :: x2).length + y2.length ≤ n := by simp at h ⊢; omega
      refine ⟨?_, ?_, ?_, ?_⟩
      · rw [levRec_cons_cons (a := c) (b := b)]
        by_cases hcb : c = b
        · subst hcb
          rw [if_pos rfl]
          exact (ih (a :: x2) y2 hm2 _).2.2.2
        · rw [if_neg hcb]
          omega
      · rw [levRec_cons_cons (a := c) (b := b)]
        by_cases hcb : c = b
        · subst hcb
          rw [if_pos rfl]
          have h4 := (ih (a :: x2) y2 hm2 c).2.2.1
          omega
        · rw [if_neg hcb]
          have h2 := (ih (a :: x2) y2 hm2 c).2.1
          have h3 := (ih (a :: x2) y2 hm2 b).2.2.1
          omega
      · rw [levRec_cons_cons (a := a) (b := c)]
        by_cases hac : a = c
        · subst hac
          rw [if_pos rfl]
          exact (ih x2 (b :: y2) hm1 _).2.1
        · rw [if_neg hac]
          omega
      · rw [levRec_cons_cons (a := a) (b := c)]
        by_cases hac : a = c
        · subst hac
          rw [if_pos rfl]
          have h4 := (ih x2 (b :: y2) hm1 a).1
          omega
        · rw [if_neg hac]
          have h1 := (ih x2 (b :: y2) hm1 a).1
          have h4 := (ih x2 (b :: y2) hm1 c).2.2.2
          omega

lemma levRec_symm [DecidableEq α] :
    ∀ (n : ℕ) (x y : List α), x.length + y.length ≤ n →
      levRec x y = levRec y x := by
  intro n
  induction n with
  | zero =>
    intro x y h
    match x, y with
    | [], [] => rfl
    | [], _ :: _ => simp at h
    | _ :: _, _ => simp at h
  | succ n ih =>
    intro x y h
    match x, y with
    | [], y => simp [levRec_nil_left, levRec_nil_right]
    | a :: x2, [] => simp [levRec_nil_left, levRec_nil_right]
    | a :: x2, b :: y2 =>
      rw [levRec_cons_cons, levRec_cons_cons]
      have hm1 : (a :: x2).length + y2.length ≤ n := by simp at h ⊢; omega
      have hm2 : x2.length + (b :: y2).length ≤ n := by simp at h ⊢; omega
      have hm3 : x2.length + y2.length ≤ n := by simp at h ⊢; omega
      by_cases hab : a = b
      · subst hab
        rw [if_pos rfl, if_pos rfl]
        exact ih x2 y2 hm3
      · rw [if_neg hab, if_neg (fun hba => hab hba.symm)]
        have e1 := ih (a :: x2) y2 hm1
        have e2 := ih x2 (b :: y2) hm2
        have e3 := ih x2 y2 hm3
        omega

lemma nat_min_transpose (p q r s t u v w x : ℕ) :
    min (1 + min p (min q r)) (min (1 + min s (min t u)) (1 + min v (min w x)))
      = min (1 + min p (min s v)) (min (1 + min q (min t w)) (1 + min r (min u x))) := by
  simp only [min_add_add_left]
  ac_rfl

set_option maxHeartbeats 1000000 in
lemma levRec_snoc [DecidableEq α] :
    ∀ (n : ℕ) (u v : List α), u.length + v.length ≤ n → ∀ c d : α,
      levRec (u ++ [c]) (v ++ [d]) =
        if c = d then levRec u v
        else 1 + min (levRec (u ++ [c]) v)
          (min (levRec u (v ++ [d])) (levRec u v)) := by
  intro n
  induction n with
  | zero =>
    intro u v h c d
    match u, v with
    | [], [] =>
      by_cases hcd : c = d <;>
        simp [levRec_cons_cons, levRec_nil_left, levRec_nil_right, hcd]
    | [], _ :: _ => simp at h
    | _ :: _, _ => simp at h
  | succ n ih =>
    intro u v h c d
    match u, v with
    | [], [] =>
      by_cases hcd : c = d <;>
        simp [levRec_cons_cons, levRec_nil_left, levRec_nil_right, hcd]
    | [], e :: v2 =>
      have e1 := ih [] v2 (by simp at h ⊢; omega) c d
      have f1 := levRec_cons_cons c e ([] : List α) v2
      simp only [List.nil_append] at e1
      simp only [List.cons_append, List.nil_append]
      rw [levRec_cons_cons c e ([] : List α) (v2 ++ [d])]
      simp only [levRec_nil_left, List.length_append, List.length_cons,
        List.length_nil] at e1 f1 ⊢
      by_cases hce : c = e <;> by_cases hcd : c = d
      · rw [if_pos hce] at f1
        rw [if_pos hcd] at e1
        rw [if_pos hce, if_pos hcd]
        all_goals omega
      · rw [if_pos hce] at f1
        rw [if_neg hcd] at e1
        rw [if_pos hce, if_neg hcd]
        all_goals omega
      · rw [if_neg hce] at f1
        rw [if_pos hcd] at e1
        rw [if_neg hce, if_pos hcd]
        all_goals omega
      · rw [if_neg hce] at f1
        rw [if_neg hcd] at e1
        rw [if_neg hce, if_neg hcd]
        all_goals omega
    | f :: u2, [] =>
      have e1 := ih u2 [] (by simp at h ⊢; omega) c d
      have f1 := levRec_cons_cons f d u2 ([] : List α)
      simp only [List.nil_append] at e1
      simp only [List.cons_append, List.nil_append]
      rw [levRec_cons_cons f d (u2 ++ [c]) ([] : List α)]
      simp only [levRec_nil_right, List.length_append, List.length_cons,
        List.length_nil] at e1 f1 ⊢
      by_cases hfd : f = d <;> by_cases hcd : c = d
      · rw [if_pos hfd] at f1
        rw [if_pos hcd] at e1
        rw [if_pos hfd, if_pos hcd]
        all_goals omega
      · rw [if_pos hfd] at f1
        rw [if_neg hcd] at e1
        rw [if_pos hfd, if_neg hcd]
        all_goals omega
      · rw [if_neg hfd] at f1
        rw [if_pos hcd] at e1
        rw [if_neg hfd, if_pos hcd]
        all_goals omega
      · rw [if_neg hfd] at f1
        rw [if_neg hcd] at e1
        rw [if_neg hfd, if_neg hcd]
        all_goals omega
    | f :: u2, e :: v2 =>
      have hs1 : (f :: u2).length + v2.length ≤ n := by simp at h ⊢; omega
      have hs2 : u2.length + (e :: v2).length ≤ n := by simp at h ⊢; omega
      have hs3 : u2.length + v2.length ≤ n := by simp at h ⊢; omega
      have e1 := ih (f :: u2) v2 hs1 c d
      have e2 := ih u2 (e :: v2) hs2 c d
      have e3 := ih u2 v2 hs3 c d
      simp only [List.cons_append] at e1 e2
      simp only [List.cons_append]
      rw [levRec_cons_cons f e (u2 ++ [c]) (v2 ++ [d]),
        levRec_cons_cons f e u2 v2,
        levRec_cons_cons f e (u2 ++ [c]) v2,
        levRec_cons_cons f e u2 (v2 ++ [d])]
      by_cases hfe : f = e <;> by_cases hcd : c = d
      · simp only [if_pos hfe, if_pos hcd] at e1 e2 e3 ⊢
        omega
      · simp only [if_pos hfe, if_neg hcd] at e1 e2 e3 ⊢
        omega
      · simp only [if_neg hfe, if_pos hcd] at e1 e2 e3 ⊢
        omega
      · simp only [if_neg hfe, if_neg hcd] at e1 e2 e3 ⊢
        rw [e1, e2, e3, nat_min_transpose]

lemma levMatrix_take [DecidableEq α] (a b : List α) :
    ∀ (n i j : ℕ), i + j ≤ n → i ≤ a.length → j ≤ b.length →
      levMatrix a b i j = levRec (a.take i) (b.take j) := by
  intro n
  induction n with
  | zero =>
    intro i j hn hi hj
    match i, j with
    | 0, 0 => simp [levMatrix, levRec_nil_left]
    | 0, j+1 => omega
    | i+1, _ => omega
  | succ n ih =>
    intro i j hn hi hj
    match i, j with
    | 0, j =>
      simp only [levMatrix, List.take_zero, levRec_nil_left, List.length_take]
      omega
    | i+1, 0 =>
      simp only [levMatrix, List.take_zero, levRec_nil_right, List.length_take]
      omega
    | i+1, j+1 =>
      have hi2 : i < a.length := by omega
      have hj2 : j < b.length := by omega
      have hta : a.take (i+1) = a.take i ++ [a.get ⟨i, hi2⟩] := by
        rw [List.take_succ]
        simp [List.getElem?_eq_getElem hi2, List.get_eq_getElem]
      have htb : b.take (j+1) = b.take j ++ [b.get ⟨j, hj2⟩] := by
        rw [List.take_succ]
        simp [List.getElem?_eq_getElem hj2, List.get_eq_getElem]
      have e1 := ih (i+1) j (by omega) hi (by omega)
      have e2 := ih i (j+1) (by omega) (by omega) hj
      have e3 := ih i j (by omega) (by omega) (by omega)
      have hsnoc := levRec_snoc ((a.take i).length + (b.take j).length)
        (a.take i) (b.take j) le_rfl (a.get ⟨i, hi2⟩) (b.get ⟨j, hj2⟩)
      rw [hta] at e1
      rw [htb] at e2
      simp only [levMatrix]
      rw [hta, htb, hsnoc]
      simp only [List.get?_eq_get hi2, List.get?_eq_get hj2, Option.some.injEq]
      by_cases hab : a.get ⟨i, hi2⟩ = b.get ⟨j, hj2⟩
      · simp only [if_pos hab, e3]
      · simp only [if_neg hab, e1, e2, e3]

lemma dynamicLevenshtein_eq_levRec (a b : GoStr) :
    DynamicLevenshtein a b = levRec a b := by
  have := levMatrix_take a b (a.length + b.length) a.length b.length le_rfl le_rfl le_rfl
  simpa [DynamicLevenshtein, List.take_length] using this

lemma levenshteinDistance_eq_levRec (a b : GoStr) :
    LevenshteinDistance a b = levRec a b :=
  dynamicLevenshtein_eq_levRec a b

/-- Length of a longest common subsequence, by the recursion parallel to
`indelRec` (used to relate the indel distance to the input lengths). -/
def lcsLen [DecidableEq α] : List α → List α → Nat
  | [], _ => 0
  | _ :: _, [] => 0
  | a :: inputRest, b :: targetRest =>
    if a = b then 1 + lcsLen inputRest targetRest
    else max (lcsLen inputRest (b :: targetRest))
      (lcsLen (a :: inputRest) targetRest)
termination_by x y => x.length + y.length
decreasing_by all_goals (simp only [List.length_cons]; omega)

lemma lcsLen_nil_left [DecidableEq α] (y : List α) :
    lcsLen ([] : List α) y = 0 := by
  simp [lcsLen]

lemma lcsLen_nil_right [DecidableEq α] (x : List α) :
    lcsLen x ([] : List α) = 0 := by
  cases x <;> simp [lcsLen]

lemma lcsLen_cons_cons [DecidableEq α] (a b : α) (x y : List α) :
    lcsLen (a :: x) (b :: y) =
      if a = b then 1 + lcsLen x y
      else max (lcsLen x (b :: y)) (lcsLen (a :: x) y) := by
  simp only [lcsLen]

lemma indelRec_nil_left [DecidableEq α] (y : List α) :
    indelRec ([] : List α) y = y.length := by
  simp [indelRec]

lemma indelRec_nil_right [DecidableEq α] (x : List α) :
    indelRec x ([] : List α) = x.length := by
  cases x <;> simp [indelRec]

lemma indelRec_cons_cons [DecidableEq α] (a b : α) (x y : List α) :
    indelRec (a :: x) (b :: y) =
      if a = b then indelRec x y
      else min (1 + indelRec x (b :: y)) (1 + indelRec (a :: x) y) := by
  simp only [indelRec]

lemma indelRec_lcsLen [DecidableEq α] :
    ∀ (n : ℕ) (x y : List α), x.length + y.length ≤ n →
      indelRec x y + 2 * lcsLen x y = x.length + y.length := by
  intro n
  induction n with
  | zero =>
    intro x y h
    match x, y with
    | [], y => simp [indelRec_nil_left, lcsLen_nil_left]
    | _ :: _, _ => simp at h
  | succ n ih =>
    intro x y h
    match x, y with
    | [], y => simp [indelRec_nil_left, lcsLen_nil_left]
    | a :: x2, [] => simp [indelRec_nil_right, lcsLen_nil_right]
    | a :: x2, b :: y2 =>
      rw [indelRec_cons_cons, lcsLen_cons_cons]
      have e1 := ih x2 (b :: y2) (by simp at h ⊢; omega)
      have e2 := ih (a :: x2) y2 (by simp at h ⊢; omega)
      have e3 := ih x2 y2 (by simp at h ⊢; omega)
      simp only [List.length_cons] at e1 e2 e3 ⊢
      by_cases hab : a = b
      · rw [if_pos hab, if_pos hab]
        omega
      · rw [if_neg hab, if_neg hab]
        omega

lemma indelRec_symm [DecidableEq α] :
    ∀ (n : ℕ) (x y : List α), x.length + y.length ≤ n →
      indelRec x y = indelRec y x := by
  intro n
  induction n with
  | zero =>
    intro x y h
    match x, y with
    | [], [] => rfl
    | [], _ :: _ => simp at h
    | _ :: _, _ => simp at h
  | succ n ih =>
    intro x y h
    match x, y with
    | [], y => simp [indelRec_nil_left, indelRec_nil_right]
    | a :: x2, [] => simp [indelRec_nil_left, indelRec_nil_right]
    | a :: x2, b :: y2 =>
      rw [indelRec_cons_cons, indelRec_cons_cons]
      have e1 := ih x2 (b :: y2) (by simp at h ⊢; omega)
      have e2 := ih (a :: x2) y2 (by simp at h ⊢; omega)
      by_cases hab : a = b
      · subst hab
        rw [if_pos rfl, if_pos rfl]
        exact ih x2 y2 (by simp at h ⊢; omega)
      · rw [if_neg hab, if_neg (fun hba => hab hba.symm)]
        omega

lemma lcsLen_append_both [DecidableEq α] :
    ∀ (u v w : List α), lcsLen (u ++ v) (u ++ w) = u.length + lcsLen v w := by
  intro u
  induction u with
  | nil => intro v w; simp
  | cons c u2 ih =>
    intro v w
    simp only [List.cons_append, lcsLen_cons_cons, List.length_cons, if_true,
      eq_self_iff_true]
    rw [ih]
    omega

/-- The first byte of the UTF-8 encoding of a scalar value. -/
def utf8Head (c : Char) : Nat :=
  let n := c.toNat
  if n < 128 then n
  else if n < 2048 then 192 + n / 64
  else if n < 65536 then 224 + n / 4096
  else 240 + n / 262144

/-- The continuation bytes of the UTF-8 encoding of a scalar value. -/
def utf8Tail (c : Char) : List Nat :=
  let n := c.toNat
  if n < 128 then []
  else if n < 2048 then [128 + n % 64]
  else if n < 65536 then [128 + (n / 64) % 64, 128 + n % 64]
  else [128 + (n / 4096) % 64, 128 + (n / 64) % 64, 128 + n % 64]

lemma utf8Char_decomp (c : Char) : utf8Char c = utf8Head c :: utf8Tail c := by
  simp only [utf8Char, utf8Head, utf8Tail]
  split_ifs <;> rfl

/-- A UTF-8 continuation byte (second or later byte of a multi-byte rune). -/
def ContByte (b : Nat) : Prop := 128 ≤ b ∧ b < 192

lemma char_toNat_lt (c : Char) : c.toNat < 1114112 := by
  rcases c.valid with h | ⟨_, h2⟩
  · exact Nat.lt_trans h (by norm_num)
  · exact h2

lemma char_toNat_inj {r s : Char} (h : r.toNat = s.toNat) : r = s := by
  have : r.val = s.val := by
    apply UInt32.toNat.inj
    exact h
  exact Char.eq_of_val_eq this

lemma utf8Tail_cont (c : Char) : ∀ b ∈ utf8Tail c, ContByte b := by
  intro b hb
  simp only [utf8Tail, ContByte] at hb ⊢
  split_ifs at hb with h1 h2 h3
  · simp at hb
  · simp only [List.mem_singleton] at hb
    subst hb
    have := Nat.mod_lt c.toNat (y := 64) (by norm_num)
    omega
  · simp only [List.mem_cons, List.mem_singleton, List.not_mem_nil, or_false] at hb
    have m1 := Nat.mod_lt (c.toNat / 64) (y := 64) (by norm_num)
    have m2 := Nat.mod_lt c.toNat (y := 64) (by norm_num)
    rcases hb with rfl | rfl <;> omega
  · simp only [List.mem_cons, List.mem_singleton, List.not_mem_nil, or_false] at hb
    have m1 := Nat.mod_lt (c.toNat / 4096) (y := 64) (by norm_num)
    have m2 := Nat.mod_lt (c.toNat / 64) (y := 64) (by norm_num)
    have m3 := Nat.mod_lt c.toNat (y := 64) (by norm_num)
    rcases hb with rfl | rfl | rfl <;> omega

lemma utf8Head_not_cont (c : Char) : ¬ ContByte (utf8Head c) := by
  simp only [utf8Head, ContByte]
  have hv := char_toNat_lt c
  split_ifs with h1 h2 h3 <;> omega

lemma utf8_same_head (r s : Char) (hne : r ≠ s) (h : utf8Head r = utf8Head s) :
    (utf8Tail r).length = (utf8Tail s).length ∧ utf8Tail r ≠ utf8Tail s := by
  have hvr := char_toNat_lt r
  have hvs := char_toNat_lt s
  have hineq : r.toNat ≠ s.toNat := fun hh => hne (char_toNat_inj hh)
  simp only [utf8Head] at h
  simp only [utf8Tail]
  split_ifs at h with a1 a2 a3 <;> split_ifs with b1 b2 b3
  · exact absurd (char_toNat_inj h) hne
  · omega
  · omega
  · omega
  · omega
  · constructor
    · rfl
    · intro ht
      simp only [List.cons.injEq, and_true] at ht
      exact hineq (by omega)
  · omega
  · omega
  · omega
  · omega
  · constructor
    · rfl
    · intro ht
      simp only [List.cons.injEq, and_true] at ht
      exact hineq (by omega)
  · omega
  · omega
  · omega
  · omega
  · constructor
    · rfl
    · intro ht
      simp only [List.cons.injEq, and_true] at ht
      exact hineq (by omega)

lemma utf8Str_nil : utf8Str [] = [] := rfl

lemma utf8Str_cons (c : Char) (x : GoStr) :
    utf8Str (c :: x) = utf8Char c ++ utf8Str x := by
  simp [utf8Str]

lemma length_le_utf8Str (x : GoStr) : x.length ≤ (utf8Str x).length := by
  induction x with
  | nil => simp [utf8Str_nil]
  | cons c x2 ih =>
    rw [utf8Str_cons, utf8Char_decomp]
    simp only [List.length_cons, List.length_append]
    omega

lemma levRec_sub_le [DecidableEq α] (a b : α) (x y : List α) :
    levRec (a :: x) (b :: y) ≤ 1 + levRec x y := by
  rw [levRec_cons_cons]
  by_cases hab : a = b
  · rw [if_pos hab]
    omega
  · rw [if_neg hab]
    omega

set_option maxHeartbeats 2000000 in
lemma utf8_lcs_key :
    ∀ (n : ℕ) (x y : GoStr) (p q : List Nat),
      p.length + q.length + (utf8Str x).length + (utf8Str y).length
        + x.length + y.length ≤ n →
      (∀ b ∈ p, ContByte b) → (∀ b ∈ q, ContByte b) →
      2 * lcsLen (p ++ utf8Str x) (q ++ utf8Str y) + levRec x y
        + (if p ≠ q ∧ p.length = q.length then 1 else 0)
        ≤ p.length + q.length + (utf8Str x).length + (utf8Str y).length := by
  intro n
  induction n with
  | zero =>
    intro x y p q h hp hq
    have hz : x.length = 0 ∧ y.length = 0 ∧ p.length = 0 ∧ q.length = 0 := by omega
    obtain rfl := List.length_eq_zero.mp hz.1
    obtain rfl := List.length_eq_zero.mp hz.2.1
    obtain rfl := List.length_eq_zero.mp hz.2.2.1
    obtain rfl := List.length_eq_zero.mp hz.2.2.2
    simp [utf8Str_nil, lcsLen_nil_left, levRec_nil_left]
  | succ n ih =>
    intro x y p q h hp hq
    match p, q with
    | c :: p2, d :: q2 =>
      have hp2 : ∀ b ∈ p2, ContByte b := fun b hb => hp b (List.mem_cons_of_mem c hb)
      have hq2 : ∀ b ∈ q2, ContByte b := fun b hb => hq b (List.mem_cons_of_mem d hb)
      by_cases hcd : c = d
      · subst hcd
        simp only [List.cons_append]
        rw [lcsLen_cons_cons, if_pos rfl]
        have key := ih x y p2 q2 (by simp only [List.length_cons] at h ⊢; omega) hp2 hq2
        have hbe : (if (c :: p2 ≠ c :: q2 ∧ (c :: p2).length = (c :: q2).length)
              then 1 else 0)
            = (if (p2 ≠ q2 ∧ p2.length = q2.length) then 1 else 0) := by
          by_cases hb2 : p2 ≠ q2 ∧ p2.length = q2.length
          · rw [if_pos hb2, if_pos (by simpa using hb2)]
          · rw [if_neg hb2, if_neg (by simpa using hb2)]
        simp only [List.length_cons] at hbe ⊢
        omega
      · simp only [List.cons_append]
        rw [lcsLen_cons_cons, if_neg hcd]
        have k1 := ih x y p2 (d :: q2)
          (by simp only [List.length_cons] at h ⊢; omega) hp2 hq
        have k2 := ih x y (c :: p2) q2
          (by simp only [List.length_cons] at h ⊢; omega) hp hq2
        simp only [List.cons_append] at k1 k2
        have hbb : (if (c :: p2 ≠ d :: q2 ∧ (c :: p2).length = (d :: q2).length)
            then 1 else 0) ≤ 1 := by
          split_ifs <;> omega
        simp only [List.length_cons] at k1 k2 hbb ⊢
        omega
    | c :: p2, [] =>
      have hp2 : ∀ b ∈ p2, ContByte b := fun b hb => hp b (List.mem_cons_of_mem c hb)
      match y with
      | [] =>
        simp only [utf8Str_nil, List.append_nil, List.nil_append, lcsLen_nil_right,
          levRec_nil_right]
        rw [if_neg (by simp)]
        have hlen := length_le_utf8Str x
        simp only [List.length_cons, List.length_nil]
        omega
      | s :: y2 =>
        have hEy : (utf8Str (s :: y2)).length
            = 1 + (utf8Tail s).length + (utf8Str y2).length := by
          rw [utf8Str_cons, utf8Char_decomp]
          simp only [List.length_append, List.length_cons]
          omega
        have hcs : c ≠ utf8Head s := by
          intro hceq
          exact utf8Head_not_cont s (hceq ▸ hp c (List.mem_cons_self c p2))
        have kA := ih x (s :: y2) p2 []
          (by simp only [List.length_cons, List.length_nil] at h ⊢; omega)
          hp2 (by simp)
        have kB := ih x y2 (c :: p2) (utf8Tail s)
          (by simp only [List.length_cons, List.length_nil] at h ⊢; omega)
          hp (utf8Tail_cont s)
        have hlev := (levRec_cons_bounds (x.length + y2.length) x y2 le_rfl s).2.2.1
        rw [utf8Str_cons, utf8Char_decomp] at kA ⊢
        simp only [List.nil_append, List.cons_append, List.append_assoc] at kA kB ⊢
        rw [lcsLen_cons_cons, if_neg hcs]
        rw [if_neg (by simp)]
        simp only [List.length_cons, List.length_nil, List.length_append] at kA kB h ⊢
        omega
    | [], d :: q2 =>
      have hq2 : ∀ b ∈ q2, ContByte b := fun b hb => hq b (List.mem_cons_of_mem d hb)
      match x with
      | [] =>
        simp only [utf8Str_nil, List.append_nil, List.nil_append, lcsLen_nil_left,
          levRec_nil_left]
        rw [if_neg (by simp)]
        have hlen := length_le_utf8Str y
        simp only [List.length_cons, List.length_nil]
        omega
      | r :: x2 =>
        have hEx : (utf8Str (r :: x2)).length
            = 1 + (utf8Tail r).length + (utf8Str x2).length := by
          rw [utf8Str_cons, utf8Char_decomp]
          simp only [List.length_append, List.length_cons]
          omega
        have hcr : utf8Head r ≠ d := by
          intro hceq
          exact utf8Head_not_cont r (hceq ▸ hq d (List.mem_cons_self d q2))
        have kA := ih x2 y (utf8Tail r) (d :: q2)
          (by simp only [List.length_cons, List.length_nil] at h ⊢; omega)
          (utf8Tail_cont r) hq
        have kB := ih (r :: x2) y [] q2
          (by simp only [List.length_cons, List.length_nil] at h ⊢; omega)
          (by simp) hq2
        have hlev := (levRec_cons_bounds (x2.length + y.length) x2 y le_rfl r).1
        rw [utf8Str_cons, utf8Char_decomp] at kB ⊢
        simp only [List.nil_append, List.cons_append, List.append_assoc] at kA kB ⊢
        rw [lcsLen_cons_cons, if_neg hcr]
        rw [if_neg (by simp)]
        simp only [List.length_cons, List.length_nil, List.length_append] at kA kB h ⊢
        omega
    | [], [] =>
      match x, y with
      | [], y =>
        simp only [utf8Str_nil, List.nil_append, lcsLen_nil_left, levRec_nil_left]
        rw [if_neg (by simp)]
        have hlen := length_le_utf8Str y
        simp only [List.length_nil]
        omega
      | r :: x2, [] =>
        simp only [utf8Str_nil, List.nil_append, lcsLen_nil_right, levRec_nil_right]
        rw [if_neg (by simp)]
        have hlen := length_le_utf8Str (r :: x2)
        simp only [List.length_nil]
        omega
      | r :: x2, s :: y2 =>
        have hEx : (utf8Str (r :: x2)).length
            = 1 + (utf8Tail r).length + (utf8Str x2).length := by
          rw [utf8Str_cons, utf8Char_decomp]
          simp only [List.length_append, List.length_cons]
          omega
        have hEy : (utf8Str (s :: y2)).length
            = 1 + (utf8Tail s).length + (utf8Str y2).length := by
          rw [utf8Str_cons, utf8Char_decomp]
          simp only [List.length_append, List.length_cons]
          omega
        rw [if_neg (by simp)]
        by_cases hrs : r = s
        · subst hrs
          rw [utf8Str_cons (c := r), utf8Str_cons (c := r)]
          simp only [List.nil_append]
          rw [lcsLen_append_both]
          have hlevq : levRec (r :: x2) (r :: y2) = levRec x2 y2 := by
            rw [levRec_cons_cons, if_pos rfl]
          have key := ih x2 y2 [] []
            (by simp only [List.length_cons, List.length_nil] at h ⊢; omega)
            (by simp) (by simp)
          rw [if_neg (by simp)] at key
          simp only [List.nil_append] at key
          have hcl : (utf8Char r).length = 1 + (utf8Tail r).length := by
            rw [utf8Char_decomp]
            simp only [List.length_cons]
            omega
          simp only [List.length_nil, List.length_append] at key ⊢
          omega
        · by_cases hhead : utf8Head r = utf8Head s
          · obtain ⟨hlen_t, hne_t⟩ := utf8_same_head r s hrs hhead
            have key := ih x2 y2 (utf8Tail r) (utf8Tail s)
              (by simp only [List.length_cons, List.length_nil] at h ⊢; omega)
              (utf8Tail_cont r) (utf8Tail_cont s)
            rw [if_pos ⟨hne_t, hlen_t⟩] at key
            have hlev := levRec_sub_le r s x2 y2
            rw [utf8Str_cons, utf8Str_cons, utf8Char_decomp, utf8Char_decomp]
            simp only [List.nil_append, List.cons_append, List.append_assoc]
            rw [lcsLen_cons_cons, if_pos hhead]
            simp only [List.length_cons, List.length_nil, List.length_append]
              at key ⊢
            omega
          · have kA := ih x2 (s :: y2) (utf8Tail r) []
              (by simp only [List.length_cons, List.length_nil] at h ⊢; omega)
              (utf8Tail_cont r) (by simp)
            have kB := ih (r :: x2) y2 [] (utf8Tail s)
              (by simp only [List.length_cons, List.length_nil] at h ⊢; omega)
              (by simp) (utf8Tail_cont s)
            have hlev1 := (levRec_cons_bounds (x2.length + (s :: y2).length)
              x2 (s :: y2) le_rfl r).1
            have hlev2 := (levRec_cons_bounds ((r :: x2).length + y2.length)
              (r :: x2) y2 le_rfl s).2.2.1
            rw [utf8Str_cons (c := s)] at kA
            rw [utf8Str_cons (c := r)] at kB
            rw [utf8Char_decomp] at kA kB
            rw [utf8Str_cons, utf8Str_cons, utf8Char_decomp, utf8Char_decomp]
            simp only [List.nil_append, List.cons_append, List.append_assoc]
              at kA kB ⊢
            rw [lcsLen_cons_cons, if_neg hhead]
            simp only [List.length_cons, List.length_nil, List.length_append]
              at kA kB ⊢
            omega

/-- C7.  For every pair of strings, the indel distance (which Go computes
on the UTF-8 bytes) is at least the Levenshtein distance (which Go
computes on the runes). -/
theorem indelDistance_ge_levenshtein (a b : GoStr) :
    LevenshteinDistance a b ≤ IndelDistance a b := by
  have hkey := utf8_lcs_key
    ((utf8Str a).length + (utf8Str b).length + a.length + b.length)
    a b [] [] (by simp only [List.length_nil]; omega) (by simp) (by simp)
  rw [if_neg (by simp)] at hkey
  simp only [List.nil_append, List.length_nil] at hkey
  have hind := indelRec_lcsLen ((utf8Str a).length + (utf8Str b).length)
    (utf8Str a) (utf8Str b) le_rfl
  rw [levenshteinDistance_eq_levRec]
  unfold IndelDistance
  omega

lemma dlLookup_mem : ∀ (cache : DlCache) (key : List Nat) (v : Nat),
    dlLookup cache key = some v → (key, v) ∈ cache := by
  intro cache
  induction cache with
  | nil =>
    intro key v h
    simp [dlLookup] at h
  | cons kv rest ih =>
    intro key v h
    obtain ⟨k2, v2⟩ := kv
    simp only [dlLookup] at h
    by_cases hk : k2 = key
    · rw [if_pos hk] at h
      simp only [Option.some.injEq] at h
      subst hk
      subst h
      exact List.mem_cons_self _ _
    · rw [if_neg hk] at h
      exact List.mem_cons_of_mem _ (ih key v h)

/-- Every cache entry of the Damerau memoization maps a key to a value
smaller than the key length (the key always holds both compared suffixes
plus the separator byte). -/
def CacheBounded (cache : DlCache) : Prop :=
  ∀ kv ∈ cache, kv.2 + 1 ≤ kv.1.length

lemma cacheBounded_cons {key : List Nat} {v : Nat} {cache : DlCache}
    (h : v + 1 ≤ key.length) (hc : CacheBounded cache) :
    CacheBounded ((key, v) :: cache) := by
  intro kv hkv
  rcases List.mem_cons.mp hkv with rfl | hmem
  · exact h
  · exact hc kv hmem

lemma dlGo_bound : ∀ (n : ℕ) (a b : List Nat) (cache : DlCache),
    a.length + b.length ≤ n → CacheBounded cache →
    (dlGo a b cache).1 ≤ a.length + b.length ∧
      CacheBounded (dlGo a b cache).2 := by
  intro n
  induction n using Nat.strong_induction_on with
  | _ n ih =>
  intro a b cache h hc
  rw [dlGo.eq_def]
  split
  · -- a = [], b arbitrary
    rename_i bb
    simp only []
    split
    · -- cache hit
      rename_i v heq
      have hmem := dlLookup_mem cache _ v heq
      have hb := hc _ hmem
      simp only [List.nil_append, List.length_cons] at hb
      exact ⟨by simp only [List.length_nil]; omega, hc⟩
    · refine ⟨by simp, ?_⟩
      apply cacheBounded_cons ?_ hc
      simp only [List.nil_append, List.length_cons, List.length_nil]
      omega
  · -- a = x :: a1, b = []
    rename_i x a1
    simp only []
    split
    · rename_i v heq
      have hmem := dlLookup_mem cache _ v heq
      have hb := hc _ hmem
      simp only [List.length_append, List.length_cons, List.length_nil] at hb
      exact ⟨by simp only [List.length_cons, List.length_nil]; omega, hc⟩
    · refine ⟨by simp, ?_⟩
      apply cacheBounded_cons ?_ hc
      simp only [List.length_append, List.length_cons, List.length_nil]
      omega
  · -- a = x :: a1, b = y :: b1
    rename_i x a1 y b1
    simp only []
    have hn1 : n - 1 < n := by
      simp only [List.length_cons] at h
      omega
    split
    · rename_i v heq
      have hmem := dlLookup_mem cache _ v heq
      have hb := hc _ hmem
      simp only [List.length_append, List.length_cons] at hb
      exact ⟨by simp only [List.length_cons]; omega, hc⟩
    · split
      · -- x = y
        have hr := ih (n - 1) hn1 a1 b1 cache
          (by simp only [List.length_cons] at h; omega) hc
        refine ⟨?_, ?_⟩
        · simp only [List.length_cons]
          omega
        · apply cacheBounded_cons ?_ hr.2
          simp only [List.length_append, List.length_cons]
          omega
      · -- x ≠ y
        have hins := ih (n - 1) hn1 (x :: a1) b1 cache
          (by simp only [List.length_cons] at h ⊢; omega) hc
        have hdel := ih (n - 1) hn1 a1 (y :: b1) (dlGo (x :: a1) b1 cache).2
          (by simp only [List.length_cons] at h ⊢; omega) hins.2
        have hrep := ih (n - 1) hn1 a1 b1
          (dlGo a1 (y :: b1) (dlGo (x :: a1) b1 cache).2).2
          (by simp only [List.length_cons] at h; omega) hdel.2
        split
        · -- a1 = x1 :: a2, b1 = y1 :: b2, transposition candidate possible
          rename_i x1 a2 y1 b2 hqm
          split
          · -- transposition applies
            have htr := ih (n - 1) hn1 a2 b2
              (dlGo (x1 :: a2) (y1 :: b2)
                (dlGo (x1 :: a2) (y :: y1 :: b2)
                  (dlGo (x :: x1 :: a2) (y1 :: b2) cache).2).2).2
              (by simp only [List.length_cons] at h; omega) hrep.2
            simp only [List.length_cons] at hins hdel hrep htr ⊢
            refine ⟨by omega, ?_⟩
            apply cacheBounded_cons ?_ htr.2
            simp only [List.length_append, List.length_cons]
            omega
          · simp only [List.length_cons] at hins hdel hrep ⊢
            refine ⟨by omega, ?_⟩
            apply cacheBounded_cons ?_ hrep.2
            simp only [List.length_append, List.length_cons]
            omega
        · simp only [List.length_cons] at hins hdel hrep ⊢
          refine ⟨by omega, ?_⟩
          apply cacheBounded_cons ?_ hrep.2
          simp only [List.length_append, List.length_cons]
          omega

lemma key_decomp_unique : ∀ (u v u2 v2 : List Nat), (124 : Nat) ∉ u → (124 : Nat) ∉ u2 →
    u ++ 124 :: v = u2 ++ 124 :: v2 → u = u2 ∧ v = v2 := by
  intro u
  induction u with
  | nil =>
    intro v u2 v2 _ hu2 h
    cases u2 with
    | nil => simpa using h
    | cons w u3 =>
      simp only [List.nil_append, List.cons_append, List.cons.injEq] at h
      exact absurd (h.1 ▸ List.mem_cons_self w u3) hu2
  | cons c u3 ih =>
    intro v u2 v2 hu hu2 h
    cases u2 with
    | nil =>
      simp only [List.cons_append, List.nil_append, List.cons.injEq] at h
      exact absurd (h.1 ▸ List.mem_cons_self c u3) hu
    | cons d u4 =>
      simp only [List.cons_append, List.cons.injEq] at h
      obtain ⟨rfl, h2⟩ := h
      have hu3 : (124 : Nat) ∉ u3 := fun hm => hu (List.mem_cons_of_mem c hm)
      have hu4 : (124 : Nat) ∉ u4 := fun hm => hu2 (List.mem_cons_of_mem c hm)
      obtain ⟨rfl, rfl⟩ := ih v u4 v2 hu3 hu4 h2
      exact ⟨rfl, rfl⟩

/-- A Damerau cache is sound when every entry whose key decomposes as a
separator-free pair stores the reference distance of that pair. -/
def CacheSound (cache : DlCache) : Prop :=
  ∀ kv ∈ cache, ∀ (u v : List Nat), (124 : Nat) ∉ u → (124 : Nat) ∉ v →
    kv.1 = u ++ 124 :: v → kv.2 = damerauRef u v

lemma cacheSound_cons {a b : List Nat} {w : Nat} {cache : DlCache}
    (ha : (124 : Nat) ∉ a) (hb : (124 : Nat) ∉ b) (hw : w = damerauRef a b)
    (hc : CacheSound cache) :
    CacheSound ((a ++ 124 :: b, w) :: cache) := by
  intro kv hkv u v hu hv hkey
  rcases List.mem_cons.mp hkv with rfl | hmem
  · obtain ⟨rfl, rfl⟩ := key_decomp_unique a b u v ha hu hkey
    exact hw
  · exact hc kv hmem u v hu hv hkey

lemma damerauRef_nil_left [DecidableEq α] (b : List α) :
    damerauRef ([] : List α) b = b.length := by
  simp [damerauRef]

lemma damerauRef_nil_right [DecidableEq α] (a : List α) :
    damerauRef a ([] : List α) = a.length := by
  cases a <;> simp [damerauRef]

lemma damerauRef_one_cons [DecidableEq α] (x y : α) (b1 : List α) :
    damerauRef [x] (y :: b1) =
      if x = y then damerauRef [] b1
      else 1 + min (damerauRef [x] b1)
        (min (damerauRef [] (y :: b1)) (damerauRef [] b1)) := by
  simp only [damerauRef]

lemma damerauRef_cons_one [DecidableEq α] (x y : α) (a1 : List α) :
    damerauRef (x :: a1) [y] =
      if x = y then damerauRef a1 []
      else 1 + min (damerauRef (x :: a1) [])
        (min (damerauRef a1 [y]) (damerauRef a1 [])) := by
  cases a1 <;> simp only [damerauRef]

lemma damerauRef_cc_cc [DecidableEq α] (x y x1 y1 : α) (a2 b2 : List α) :
    damerauRef (x :: x1 :: a2) (y :: y1 :: b2) =
      if x = y then damerauRef (x1 :: a2) (y1 :: b2)
      else if x = y1 ∧ x1 = y then
        min (1 + min (damerauRef (x :: x1 :: a2) (y1 :: b2))
          (min (damerauRef (x1 :: a2) (y :: y1 :: b2))
            (damerauRef (x1 :: a2) (y1 :: b2))))
          (1 + damerauRef a2 b2)
      else 1 + min (damerauRef (x :: x1 :: a2) (y1 :: b2))
        (min (damerauRef (x1 :: a2) (y :: y1 :: b2))
          (damerauRef (x1 :: a2) (y1 :: b2))) := by
  simp only [damerauRef]

lemma damerauRef_heads_eq [DecidableEq α] (x : α) (a1 b1 : List α) :
    damerauRef (x :: a1) (x :: b1) = damerauRef a1 b1 := by
  cases a1 <;> cases b1 <;> simp [damerauRef]

set_option maxHeartbeats 2000000 in
lemma dlGo_sound : ∀ (n : ℕ) (a b : List Nat) (cache : DlCache),
    a.length + b.length ≤ n → (124 : Nat) ∉ a → (124 : Nat) ∉ b → CacheSound cache →
    (dlGo a b cache).1 = damerauRef a b ∧ CacheSound (dlGo a b cache).2 := by
  intro n
  induction n using Nat.strong_induction_on with
  | _ n ih =>
  intro a b cache h ha hb hc
  match a, b with
  | [], bb =>
    rw [dlGo.eq_def]
    simp only []
    split
    · rename_i v heq
      have hmem := dlLookup_mem cache _ v heq
      have hv := hc _ hmem [] bb (by simp) hb (by simp)
      rw [damerauRef_nil_left] at hv ⊢
      exact ⟨hv, hc⟩
    · refine ⟨(damerauRef_nil_left bb).symm ▸ rfl, ?_⟩
      exact cacheSound_cons (a := []) (by simp) hb
        (by rw [damerauRef_nil_left]) hc
  | x :: a1, [] =>
    rw [dlGo.eq_def]
    simp only []
    split
    · rename_i v heq
      have hmem := dlLookup_mem cache _ v heq
      have hv := hc _ hmem (x :: a1) [] ha (by simp) (by simp)
      rw [damerauRef_nil_right] at hv ⊢
      exact ⟨hv, hc⟩
    · refine ⟨by rw [damerauRef_nil_right], ?_⟩
      exact cacheSound_cons (a := x :: a1) ha (by simp)
        (by rw [damerauRef_nil_right]) hc
  | x :: a1, y :: b1 =>
    have hn1 : n - 1 < n := by
      simp only [List.length_cons] at h
      omega
    have ha1 : (124 : Nat) ∉ a1 := fun hm => ha (List.mem_cons_of_mem x hm)
    have hb1 : (124 : Nat) ∉ b1 := fun hm => hb (List.mem_cons_of_mem y hm)
    match a1, b1 with
    | [], [] =>
      rw [dlGo.eq_def]
      simp only []
      split
      · rename_i v heq
        have hmem := dlLookup_mem cache _ v heq
        have hv := hc _ hmem [x] [y] ha hb (by simp)
        exact ⟨hv, hc⟩
      · split
        · rename_i hxy
          have hrec := ih (n - 1) hn1 [] [] cache
            (by simp only [List.length_cons, List.length_nil] at h ⊢; omega)
            (by simp) (by simp) hc
          have hval : (dlGo [] [] cache).1 = damerauRef [x] [y] := by
            rw [damerauRef_one_cons, if_pos hxy, damerauRef_nil_left]
            rw [hrec.1, damerauRef_nil_left]
          exact ⟨hval, cacheSound_cons (a := [x]) ha hb hval hrec.2⟩
        · rename_i hxy
          have hins := ih (n - 1) hn1 [x] [] cache
            (by simp only [List.length_cons, List.length_nil] at h ⊢; omega)
            ha (by simp) hc
          have hdel := ih (n - 1) hn1 [] [y] (dlGo [x] [] cache).2
            (by simp only [List.length_cons, List.length_nil] at h ⊢; omega)
            (by simp) hb hins.2
          have hrep := ih (n - 1) hn1 [] [] (dlGo [] [y] (dlGo [x] [] cache).2).2
            (by simp only [List.length_cons, List.length_nil] at h ⊢; omega)
            (by simp) (by simp) hdel.2
          have hval : 1 + min (dlGo [x] [] cache).1
              (min (dlGo [] [y] (dlGo [x] [] cache).2).1
                (dlGo [] [] (dlGo [] [y] (dlGo [x] [] cache).2).2).1)
              = damerauRef [x] [y] := by
            rw [damerauRef_one_cons, if_neg hxy, hins.1, hdel.1, hrep.1]
          exact ⟨hval, cacheSound_cons (a := [x]) ha hb hval hrep.2⟩
    | [], y1 :: b2 =>
      rw [dlGo.eq_def]
      simp only []
      split
      · rename_i v heq
        have hmem := dlLookup_mem cache _ v heq
        have hv := hc _ hmem [x] (y :: y1 :: b2) ha hb (by simp)
        exact ⟨hv, hc⟩
      · split
        · rename_i hxy
          have hrec := ih (n - 1) hn1 [] (y1 :: b2) cache
            (by simp only [List.length_cons, List.length_nil] at h ⊢; omega)
            (by simp) hb1 hc
          have hval : (dlGo [] (y1 :: b2) cache).1 = damerauRef [x] (y :: y1 :: b2) := by
            rw [damerauRef_one_cons, if_pos hxy, hrec.1]
          exact ⟨hval, cacheSound_cons (a := [x]) ha hb hval hrec.2⟩
        · rename_i hxy
          have hins := ih (n - 1) hn1 [x] (y1 :: b2) cache
            (by simp only [List.length_cons, List.length_nil] at h ⊢; omega) ha hb1 hc
          have hdel := ih (n - 1) hn1 [] (y :: y1 :: b2) (dlGo [x] (y1 :: b2) cache).2
            (by simp only [List.length_cons, List.length_nil] at h ⊢; omega)
            (by simp) hb hins.2
          have hrep := ih (n - 1) hn1 [] (y1 :: b2)
            (dlGo [] (y :: y1 :: b2) (dlGo [x] (y1 :: b2) cache).2).2
            (by simp only [List.length_cons, List.length_nil] at h ⊢; omega)
            (by simp) hb1 hdel.2
          have hval : 1 + min (dlGo [x] (y1 :: b2) cache).1
              (min (dlGo [] (y :: y1 :: b2) (dlGo [x] (y1 :: b2) cache).2).1
                (dlGo [] (y1 :: b2)
                  (dlGo [] (y :: y1 :: b2) (dlGo [x] (y1 :: b2) cache).2).2).1)
              = damerauRef [x] (y :: y1 :: b2) := by
            rw [damerauRef_one_cons, if_neg hxy, hins.1, hdel.1, hrep.1]
          exact ⟨hval, cacheSound_cons (a := [x]) ha hb hval hrep.2⟩
    | x1 :: a2, [] =>
      rw [dlGo.eq_def]
      simp only []
      split
      · rename_i v heq
        have hmem := dlLookup_mem cache _ v heq
        have hv := hc _ hmem (x :: x1 :: a2) [y] ha hb (by simp)
        exact ⟨hv, hc⟩
      · split
        · rename_i hxy
          have hrec := ih (n - 1) hn1 (x1 :: a2) [] cache
            (by simp only [List.length_cons, List.length_nil] at h ⊢; omega)
            ha1 (by simp) hc
          have hval : (dlGo (x1 :: a2) [] cache).1 = damerauRef (x :: x1 :: a2) [y] := by
            rw [damerauRef_cons_one, if_pos hxy, hrec.1]
          exact ⟨hval, cacheSound_cons (a := x :: x1 :: a2) ha hb hval hrec.2⟩
        · rename_i hxy
          have hins := ih (n - 1) hn1 (x :: x1 :: a2) [] cache
            (by simp only [List.length_cons, List.length_nil] at h ⊢; omega) ha (by simp) hc
          have hdel := ih (n - 1) hn1 (x1 :: a2) [y] (dlGo (x :: x1 :: a2) [] cache).2
            (by simp only [List.length_cons, List.length_nil] at h ⊢; omega)
            ha1 hb hins.2
          have hrep := ih (n - 1) hn1 (x1 :: a2) []
            (dlGo (x1 :: a2) [y] (dlGo (x :: x1 :: a2) [] cache).2).2
            (by simp only [List.length_cons, List.length_nil] at h ⊢; omega)
            ha1 (by simp) hdel.2
          have hval : 1 + min (dlGo (x :: x1 :: a2) [] cache).1
              (min (dlGo (x1 :: a2) [y] (dlGo (x :: x1 :: a2) [] cache).2).1
                (dlGo (x1 :: a2) []
                  (dlGo (x1 :: a2) [y] (dlGo (x :: x1 :: a2) [] cache).2).2).1)
              = damerauRef (x :: x1 :: a2) [y] := by
            rw [damerauRef_cons_one, if_neg hxy, hins.1, hdel.1, hrep.1]
          exact ⟨hval, cacheSound_cons (a := x :: x1 :: a2) ha hb hval hrep.2⟩
    | x1 :: a2, y1 :: b2 =>
      have ha2 : (124 : Nat) ∉ a2 := fun hm => ha1 (List.mem_cons_of_mem x1 hm)
      have hb2 : (124 : Nat) ∉ b2 := fun hm => hb1 (List.mem_cons_of_mem y1 hm)
      rw [dlGo.eq_def]
      simp only []
      split
      · rename_i v heq
        have hmem := dlLookup_mem cache _ v heq
        have hv := hc _ hmem (x :: x1 :: a2) (y :: y1 :: b2) ha hb (by simp)
        exact ⟨hv, hc⟩
      · split
        · rename_i hxy
          have hrec := ih (n - 1) hn1 (x1 :: a2) (y1 :: b2) cache
            (by simp only [List.length_cons] at h ⊢; omega) ha1 hb1 hc
          have hval : (dlGo (x1 :: a2) (y1 :: b2) cache).1
              = damerauRef (x :: x1 :: a2) (y :: y1 :: b2) := by
            rw [damerauRef_cc_cc, if_pos hxy, hrec.1]
          exact ⟨hval,
            cacheSound_cons (a := x :: x1 :: a2) ha hb hval hrec.2⟩
        · rename_i hxy
          have hins := ih (n - 1) hn1 (x :: x1 :: a2) (y1 :: b2) cache
            (by simp only [List.length_cons] at h ⊢; omega) ha hb1 hc
          have hdel := ih (n - 1) hn1 (x1 :: a2) (y :: y1 :: b2)
            (dlGo (x :: x1 :: a2) (y1 :: b2) cache).2
            (by simp only [List.length_cons] at h ⊢; omega) ha1 hb hins.2
          have hrep := ih (n - 1) hn1 (x1 :: a2) (y1 :: b2)
            (dlGo (x1 :: a2) (y :: y1 :: b2)
              (dlGo (x :: x1 :: a2) (y1 :: b2) cache).2).2
            (by simp only [List.length_cons] at h ⊢; omega) ha1 hb1 hdel.2
          split
          · rename_i htc
            have htr := ih (n - 1) hn1 a2 b2
              (dlGo (x1 :: a2) (y1 :: b2)
                (dlGo (x1 :: a2) (y :: y1 :: b2)
                  (dlGo (x :: x1 :: a2) (y1 :: b2) cache).2).2).2
              (by simp only [List.length_cons] at h ⊢; omega) ha2 hb2 hrep.2
            have hval : min (1 + min (dlGo (x :: x1 :: a2) (y1 :: b2) cache).1
                (min (dlGo (x1 :: a2) (y :: y1 :: b2)
                    (dlGo (x :: x1 :: a2) (y1 :: b2) cache).2).1
                  (dlGo (x1 :: a2) (y1 :: b2)
                    (dlGo (x1 :: a2) (y :: y1 :: b2)
                      (dlGo (x :: x1 :: a2) (y1 :: b2) cache).2).2).1))
                (1 + (dlGo a2 b2
                  (dlGo (x1 :: a2) (y1 :: b2)
                    (dlGo (x1 :: a2) (y :: y1 :: b2)
                      (dlGo (x :: x1 :: a2) (y1 :: b2) cache).2).2).2).1)
                = damerauRef (x :: x1 :: a2) (y :: y1 :: b2) := by
              rw [damerauRef_cc_cc, if_neg hxy, if_pos htc,
                hins.1, hdel.1, hrep.1, htr.1]
            exact ⟨hval,
              cacheSound_cons (a := x :: x1 :: a2) ha hb hval htr.2⟩
          · rename_i htc
            have hval : 1 + min (dlGo (x :: x1 :: a2) (y1 :: b2) cache).1
                (min (dlGo (x1 :: a2) (y :: y1 :: b2)
                    (dlGo (x :: x1 :: a2) (y1 :: b2) cache).2).1
                  (dlGo (x1 :: a2) (y1 :: b2)
                    (dlGo (x1 :: a2) (y :: y1 :: b2)
                      (dlGo (x :: x1 :: a2) (y1 :: b2) cache).2).2).1)
                = damerauRef (x :: x1 :: a2) (y :: y1 :: b2) := by
              rw [damerauRef_cc_cc, if_neg hxy, if_neg htc,
                hins.1, hdel.1, hrep.1]
            exact ⟨hval,
              cacheSound_cons (a := x :: x1 :: a2) ha hb hval hrep.2⟩

lemma damerauRef_le_levRec [DecidableEq α] :
    ∀ (n : ℕ) (x y : List α), x.length + y.length ≤ n →
      damerauRef x y ≤ levRec x y := by
  intro n
  induction n with
  | zero =>
    intro x y h
    match x, y with
    | [], y => simp [damerauRef_nil_left, levRec_nil_left]
    | _ :: _, _ => simp at h
  | succ n ih =>
    intro x y h
    match x, y with
    | [], y => simp [damerauRef_nil_left, levRec_nil_left]
    | x :: a1, [] => simp [damerauRef_nil_right, levRec_nil_right]
    | x :: a1, y :: b1 =>
      rw [levRec_cons_cons]
      by_cases hxy : x = y
      · subst hxy
        rw [if_pos rfl, damerauRef_heads_eq]
        exact ih a1 b1 (by simp only [List.length_cons] at h ⊢; omega)
      · rw [if_neg hxy]
        have hins := ih (x :: a1) b1 (by simp only [List.length_cons] at h ⊢; omega)
        have hdel := ih a1 (y :: b1) (by simp only [List.length_cons] at h ⊢; omega)
        have hrep := ih a1 b1 (by simp only [List.length_cons] at h ⊢; omega)
        match a1, b1 with
        | [], [] =>
          rw [damerauRef_one_cons, if_neg hxy]
          omega
        | [], y1 :: b2 =>
          rw [damerauRef_one_cons, if_neg hxy]
          omega
        | x1 :: a2, [] =>
          rw [damerauRef_cons_one, if_neg hxy]
          omega
        | x1 :: a2, y1 :: b2 =>
          rw [damerauRef_cc_cc, if_neg hxy]
          by_cases htc : x = y1 ∧ x1 = y
          · rw [if_pos htc]
            omega
          · rw [if_neg htc]
            omega

lemma damerauRef_symm [DecidableEq α] :
    ∀ (n : ℕ) (x y : List α), x.length + y.length ≤ n →
      damerauRef x y = damerauRef y x := by
  intro n
  induction n with
  | zero =>
    intro x y h
    match x, y with
    | [], [] => rfl
    | [], _ :: _ => simp at h
    | _ :: _, _ => simp at h
  | succ n ih =>
    intro x y h
    match x, y with
    | [], y => simp [damerauRef_nil_left, damerauRef_nil_right]
    | x :: a1, [] => simp [damerauRef_nil_left, damerauRef_nil_right]
    | x :: a1, y :: b1 =>
      by_cases hxy : x = y
      · subst hxy
        rw [damerauRef_heads_eq, damerauRef_heads_eq]
        exact ih a1 b1 (by simp only [List.length_cons] at h ⊢; omega)
      · have hyx : ¬ y = x := fun hh => hxy hh.symm
        have hins := ih (x :: a1) b1 (by simp only [List.length_cons] at h ⊢; omega)
        have hdel := ih a1 (y :: b1) (by simp only [List.length_cons] at h ⊢; omega)
        have hrep := ih a1 b1 (by simp only [List.length_cons] at h ⊢; omega)
        match a1, b1 with
        | [], [] =>
          rw [damerauRef_one_cons, if_neg hxy, damerauRef_one_cons, if_neg hyx]
          omega
        | [], y1 :: b2 =>
          rw [damerauRef_one_cons, if_neg hxy, damerauRef_cons_one, if_neg hyx]
          omega
        | x1 :: a2, [] =>
          rw [damerauRef_cons_one, if_neg hxy, damerauRef_one_cons, if_neg hyx]
          omega
        | x1 :: a2, y1 :: b2 =>
          have htr := ih a2 b2 (by simp only [List.length_cons] at h ⊢; omega)
          rw [damerauRef_cc_cc, if_neg hxy, damerauRef_cc_cc, if_neg hyx]
          by_cases htc : x = y1 ∧ x1 = y
          · rw [if_pos htc, if_pos (by exact ⟨htc.2.symm, htc.1.symm⟩)]
            omega
          · rw [if_neg htc, if_neg (fun hh => htc ⟨hh.2.symm, hh.1.symm⟩)]
            omega

lemma levRec_map_inj [DecidableEq α] [DecidableEq β] (f : α → β)
    (hf : ∀ u v, f u = f v → u = v) :
    ∀ (n : ℕ) (x y : List α), x.length + y.length ≤ n →
      levRec (x.map f) (y.map f) = levRec x y := by
  intro n
  induction n with
  | zero =>
    intro x y h
    match x, y with
    | [], y => simp [levRec_nil_left]
    | _ :: _, _ => simp at h
  | succ n ih =>
    intro x y h
    match x, y with
    | [], y => simp [levRec_nil_left]
    | a :: x2, [] => simp [levRec_nil_right]
    | a :: x2, b :: y2 =>
      simp only [List.map_cons]
      rw [levRec_cons_cons, levRec_cons_cons]
      have e1 := ih (a :: x2) y2 (by simp only [List.length_cons] at h ⊢; omega)
      have e2 := ih x2 (b :: y2) (by simp only [List.length_cons] at h ⊢; omega)
      have e3 := ih x2 y2 (by simp only [List.length_cons] at h ⊢; omega)
      simp only [List.map_cons] at e1 e2
      by_cases hab : a = b
      · rw [if_pos hab, if_pos (by rw [hab])]
        exact e3
      · rw [if_neg hab, if_neg (fun hh => hab (hf a b hh))]
        omega

lemma ascii_utf8Str (a : GoStr) (ha : ∀ c ∈ a, c.toNat < 128) :
    utf8Str a = a.map Char.toNat := by
  induction a with
  | nil => rfl
  | cons c a2 ih =>
    rw [utf8Str_cons, List.map_cons,
      ih (fun d hd => ha d (List.mem_cons_of_mem c hd))]
    have hc := ha c (List.mem_cons_self c a2)
    simp only [utf8Char, if_pos hc]
    rfl

lemma pipe_free_bytes (a : GoStr) (ha : ('|' : Char) ∉ a) :
    (124 : Nat) ∉ utf8Str a := by
  intro hmem
  induction a with
  | nil => simp [utf8Str_nil] at hmem
  | cons c a2 ih =>
    rw [utf8Str_cons, List.mem_append] at hmem
    rcases hmem with hm | hm
    · have : c = '|' := by
        by_cases hc : c.toNat < 128
        · simp only [utf8Char, if_pos hc, List.mem_singleton] at hm
          exact char_toNat_inj (by rw [← hm]; rfl)
        · exfalso
          rw [utf8Char_decomp] at hm
          rcases List.mem_cons.mp hm with heq | htail
          · have hnc := utf8Head_not_cont c
            simp only [utf8Head, ContByte, if_neg hc] at heq hnc
            split_ifs at heq <;> omega
          · have := utf8Tail_cont c 124 htail
            simp only [ContByte] at this
            omega
      exact ha (this ▸ List.mem_cons_self c a2)
    · exact ih (fun hp => ha (List.mem_cons_of_mem c hp)) hm

lemma char_ne_toNat {c : Char} (h : c ≠ '|') : c.toNat ≠ 124 := by
  intro hh
  exact h (char_toNat_inj (by rw [hh]; rfl))

lemma cacheSound_nil : CacheSound [] := by
  intro kv hkv
  simp at hkv

lemma cacheBounded_nil : CacheBounded [] := by
  intro kv hkv
  simp at hkv

/-- C3 (code bug).  On inputs containing the separator character of the
memoization key, `DamerauLevenshtein` diverges from the reference
Damerau-Levenshtein recurrence: a cache-key collision makes the call on
`"a|"` against `"|||"` return `1`, although the recurrence (the same inner
function without the cache) yields the true distance `2`. -/
theorem damerauLevenshtein_cache_bug :
    DamerauLevenshtein "a|".toList "|||".toList = 1 ∧
    damerauRef (utf8Str "a|".toList) (utf8Str "|||".toList) = 2 := by
  constructor
  · simp [DamerauLevenshtein, dlGo, dlLookup, utf8Str, utf8Char]
  · simp [damerauRef, utf8Str, utf8Char]

/-- Counterexample to C4 as stated: `DamerauLevenshtein` counts UTF-8
bytes while `LevenshteinDistance` counts runes, so on `"é"` against the
empty string it returns 2 > 1; and even on ASCII inputs a cache-key
collision caused by `'|'` makes it return 2 > 1 on `"a||"` against
`"||"`. -/
theorem damerau_le_lev_counterexample :
    ¬ (DamerauLevenshtein ['é'] [] ≤ LevenshteinDistance ['é'] []) ∧
    ¬ (DamerauLevenshtein "a||".toList "||".toList
        ≤ LevenshteinDistance "a||".toList "||".toList) := by
  constructor
  · have h1 : DamerauLevenshtein ['é'] [] = 2 := by
      simp [DamerauLevenshtein, dlGo, dlLookup, utf8Str, utf8Char]
    have h2 : LevenshteinDistance ['é'] [] = 1 := by
      simp [LevenshteinDistance, DynamicLevenshtein, levMatrix]
    omega
  · have h1 : DamerauLevenshtein "a||".toList "||".toList = 2 := by
      simp [DamerauLevenshtein, dlGo, dlLookup, utf8Str, utf8Char]
    have h2 : LevenshteinDistance "a||".toList "||".toList = 1 := by
      simp [LevenshteinDistance, DynamicLevenshtein, levMatrix]
    omega

/-- C4 as amended.  For strings of ASCII characters none of which is the
cache separator `'|'`, `DamerauLevenshtein` is at most
`LevenshteinDistance` (adding the transposition operation can only lower
the distance). -/
theorem damerau_le_lev_ascii (a b : GoStr)
    (ha : ∀ c ∈ a, c.toNat < 128 ∧ c ≠ (Char.ofNat 124))
    (hb : ∀ c ∈ b, c.toNat < 128 ∧ c ≠ (Char.ofNat 124)) :
    DamerauLevenshtein a b ≤ LevenshteinDistance a b := by
  have hpa : (124 : Nat) ∉ utf8Str a :=
    pipe_free_bytes a (fun hm => (ha _ hm).2 rfl)
  have hpb : (124 : Nat) ∉ utf8Str b :=
    pipe_free_bytes b (fun hm => (hb _ hm).2 rfl)
  have hsound := dlGo_sound ((utf8Str a).length + (utf8Str b).length)
    (utf8Str a) (utf8Str b) [] le_rfl hpa hpb cacheSound_nil
  unfold DamerauLevenshtein
  rw [hsound.1]
  calc damerauRef (utf8Str a) (utf8Str b)
      ≤ levRec (utf8Str a) (utf8Str b) := damerauRef_le_levRec _ _ _ le_rfl
    _ = levRec a b := by
        rw [ascii_utf8Str a (fun c hc => (ha c hc).1),
          ascii_utf8Str b (fun c hc => (hb c hc).1)]
        exact levRec_map_inj Char.toNat (fun u v hh => char_toNat_inj hh)
          (a.length + b.length) a b le_rfl
    _ = LevenshteinDistance a b := (levenshteinDistance_eq_levRec a b).symm

/-- Witness for the amended C4 at a concrete ASCII input: the distance
from `"ab"` to `"ba"` is taken by a transposition, below the Levenshtein
value. -/
theorem damerau_le_lev_ascii_witness :
    DamerauLevenshtein "ab".toList "ba".toList
      ≤ LevenshteinDistance "ab".toList "ba".toList :=
  damerau_le_lev_ascii "ab".toList "ba".toList (by decide) (by decide)

/-- Counterexample to C5 as stated: `IndelDistance` measures the distance
to the empty string in UTF-8 bytes, not Unicode scalar values, so on the
one-scalar string `"é"` it returns 2, not 1. -/
theorem indel_empty_base_counterexample :
    ¬ (IndelDistance [] ['é'] = (['é'] : GoStr).length) := by
  have h1 : IndelDistance [] ['é'] = 2 := by
    simp [IndelDistance, indelRec, utf8Str, utf8Char]
  rw [h1]
  simp

lemma damerauLevenshtein_nil_left (s : GoStr) :
    DamerauLevenshtein [] s = (utf8Str s).length := by
  unfold DamerauLevenshtein
  rw [dlGo.eq_def]
  simp [dlLookup, utf8Str_nil]

lemma damerauLevenshtein_nil_right (s : GoStr) :
    DamerauLevenshtein s [] = (utf8Str s).length := by
  unfold DamerauLevenshtein
  rcases hs : utf8Str s with _ | ⟨x, a1⟩ <;>
    rw [dlGo.eq_def] <;> simp [dlLookup, utf8Str_nil]

/-- C5 as amended.  `LevenshteinDistance` satisfies the empty-string base
cases with the length counted in Unicode scalar values, while
`IndelDistance` and `DamerauLevenshtein` satisfy them with the length
counted in UTF-8 bytes (the two lengths agree exactly on ASCII
strings). -/
theorem distance_empty_base_cases (s : GoStr) :
    LevenshteinDistance [] s = s.length ∧
    LevenshteinDistance s [] = s.length ∧
    IndelDistance [] s = (utf8Str s).length ∧
    IndelDistance s [] = (utf8Str s).length ∧
    DamerauLevenshtein [] s = (utf8Str s).length ∧
    DamerauLevenshtein s [] = (utf8Str s).length := by
  refine ⟨?_, ?_, ?_, ?_, ?_, ?_⟩
  · rw [levenshteinDistance_eq_levRec, levRec_nil_left]
  · rw [levenshteinDistance_eq_levRec, levRec_nil_right]
  · unfold IndelDistance
    rw [utf8Str_nil, indelRec_nil_left]
  · unfold IndelDistance
    rw [utf8Str_nil, indelRec_nil_right]
  · exact damerauLevenshtein_nil_left s
  · exact damerauLevenshtein_nil_right s

/-- Counterexample to C6 as stated: the memoization cache-key collision
makes `DamerauLevenshtein` asymmetric on inputs containing `'|'`. -/
theorem damerau_symm_counterexample :
    ¬ (DamerauLevenshtein "a|".toList "|||".toList
        = DamerauLevenshtein "|||".toList "a|".toList) := by
  have h1 : DamerauLevenshtein "a|".toList "|||".toList = 1 := by
    simp [DamerauLevenshtein, dlGo, dlLookup, utf8Str, utf8Char]
  have h2 : DamerauLevenshtein "|||".toList "a|".toList = 2 := by
    simp [DamerauLevenshtein, dlGo, dlLookup, utf8Str, utf8Char]
  omega

/-- C6 as amended.  `LevenshteinDistance` and `IndelDistance` are
symmetric on all strings; `DamerauLevenshtein` is symmetric on strings
that avoid the cache separator character `'|'`. -/
theorem distances_symm (a b : GoStr) :
    LevenshteinDistance a b = LevenshteinDistance b a ∧
    IndelDistance a b = IndelDistance b a ∧
    ((Char.ofNat 124) ∉ a → (Char.ofNat 124) ∉ b →
      DamerauLevenshtein a b = DamerauLevenshtein b a) := by
  refine ⟨?_, ?_, ?_⟩
  · rw [levenshteinDistance_eq_levRec, levenshteinDistance_eq_levRec]
    exact levRec_symm (a.length + b.length) a b le_rfl
  · unfold IndelDistance
    exact indelRec_symm ((utf8Str a).length + (utf8Str b).length) _ _ le_rfl
  · intro hpa hpb
    have h1 := dlGo_sound ((utf8Str a).length + (utf8Str b).length)
      (utf8Str a) (utf8Str b) [] le_rfl
      (pipe_free_bytes a hpa) (pipe_free_bytes b hpb) cacheSound_nil
    have h2 := dlGo_sound ((utf8Str b).length + (utf8Str a).length)
      (utf8Str b) (utf8Str a) [] le_rfl
      (pipe_free_bytes b hpb) (pipe_free_bytes a hpa) cacheSound_nil
    unfold DamerauLevenshtein
    rw [h1.1, h2.1]
    exact damerauRef_symm ((utf8Str a).length + (utf8Str b).length) _ _ le_rfl

/-- Witness for the amended C6 at concrete separator-free inputs. -/
theorem distances_symm_witness :
    DamerauLevenshtein "ab".toList "ba".toList
      = DamerauLevenshtein "ba".toList "ab".toList :=
  (distances_symm "ab".toList "ba".toList).2.2 (by decide) (by decide)

/-- Inner matching loop of `JaroSimilarity`: the first index `j` of the
half-open window `[start, stop)` whose target byte equals `c` and is not
yet matched (the Go `for` loop over `j` with an early `break`). -/
def jaroFind (c : Nat) (tgt : List Nat) (tm : List Bool)
    (start stop : Nat) : Option Nat :=
  (List.range' start (stop - start)).find?
    (fun j => tgt.getD j 0 == c && !(tm.getD j false))

/-- Matching phase of `JaroSimilarity` over the remaining input bytes,
carrying the current input index and the target match flags; returns the
input match flags (index `i` is written during iteration `i`, so they are
accumulated in order), the final target flags and the number of
matches. -/
def jaroScan (tgt : List Nat) (mmd : Int) (lb : Nat) :
    List Nat → Nat → List Bool → List Bool × List Bool × Nat
  | [], _, tm => ([], tm, 0)
  | c :: rest, i, tm =>
    let start := (max 0 ((i : Int) - mmd)).toNat
    let stop := (min (lb : Int) ((i : Int) + mmd + 1)).toNat
    match jaroFind c tgt tm start stop with
    | some j =>
      let res := jaroScan tgt mmd lb rest (i + 1) (tm.set j true)
      (true :: res.1, res.2.1, res.2.2 + 1)
    | none =>
      let res := jaroScan tgt mmd lb rest (i + 1) tm
      (false :: res.1, res.2.1, res.2.2)

/-- The marker walk of `calculateTranspositions`: for each matched input
byte, advance the target marker to the next matched target byte and count
a mismatch when the bytes differ.  The empty fallback is unreachable for
the flag vectors produced by the matching phase (Go would panic there). -/
def transWalk : List (Nat × Bool) → List (Nat × Bool) → Nat
  | [], _ => 0
  | (c, m) :: rest, tgt =>
    if m then
      match tgt.dropWhile (fun p => !p.2) with
      | (t, _) :: tgtRest => (if c ≠ t then 1 else 0) + transWalk rest tgtRest
      | [] => 0
    else transWalk rest tgt

/-- Model of `calculateTranspositions` in `algorithms/jaro.go`: the
mismatch count of the marker walk, halved by integer division. -/
def calculateTranspositions (inputString targetString : List Nat)
    (im tm : List Bool) : Nat :=
  transWalk (inputString.zip im) (targetString.zip tm) / 2

/-- Model of `JaroSimilarity` in `algorithms/jaro.go`, over the UTF-8
bytes of the two strings (Go indexes the strings by bytes); `float32`
arithmetic is modelled by exact rationals. -/
def JaroSimilarity (inputString targetString : GoStr) : ℚ :=
  let ib := utf8Str inputString
  let tb := utf8Str targetString
  if ib = tb then 1
  else
    let la := ib.length
    let lb := tb.length
    let mmd : Int := (max la lb : Int) / 2 - 1
    let scan := jaroScan tb mmd lb ib 0 (List.replicate lb false)
    let matchCount := scan.2.2
    if matchCount < 1 then 0
    else
      let transpositions := calculateTranspositions ib tb scan.1 scan.2.1
      ((matchCount : ℚ) / (la : ℚ) + (matchCount : ℚ) / (lb : ℚ)
        + ((matchCount : ℚ) - (transpositions : ℚ)) / (matchCount : ℚ)) / 3

/-- Model of `CalculateSimilarity` in `algorithms/utilities.go`: one for
equal strings, otherwise one minus the distance normalized by the sum of
the byte lengths. -/
def CalculateSimilarity (inputString targetString : GoStr)
    (algorithm : GoStr → GoStr → Nat) : ℚ :=
  let inputLength := (utf8Str inputString).length
  let targetLength := (utf8Str targetString).length
  if utf8Str inputString = utf8Str targetString then 1
  else
    let distance := algorithm inputString targetString
    let normalized_distance :=
      (distance : ℚ) / ((inputLength : ℚ) + (targetLength : ℚ))
    1 - normalized_distance

lemma jaro_almni_hi : JaroSimilarity "almni".toList "hi".toList = 0 := by
  rw [JaroSimilarity]
  simp only []
  rw [if_neg (by decide)]
  have hscan : jaroScan (utf8Str "hi".toList)
      ((max (utf8Str "almni".toList).length (utf8Str "hi".toList).length : Int) / 2 - 1)
      (utf8Str "hi".toList).length (utf8Str "almni".toList) 0
      (List.replicate (utf8Str "hi".toList).length false)
      = ([false, false, false, false, false], [false, false], 0) := by decide
  rw [hscan]
  norm_num

lemma jaro_almni_hello : JaroSimilarity "almni".toList "hello".toList = 7/15 := by
  rw [JaroSimilarity]
  simp only []
  rw [if_neg (by decide)]
  have hscan : jaroScan (utf8Str "hello".toList)
      ((max (utf8Str "almni".toList).length (utf8Str "hello".toList).length : Int) / 2 - 1)
      (utf8Str "hello".toList).length (utf8Str "almni".toList) 0
      (List.replicate (utf8Str "hello".toList).length false)
      = ([false, true, false, false, false], [false, false, true, false, false], 1) := by decide
  rw [hscan]
  have htr : calculateTranspositions (utf8Str "almni".toList) (utf8Str "hello".toList)
      [false, true, false, false, false] [false, false, true, false, false] = 0 := by decide
  have hl1 : (utf8Str "almni".toList).length = 5 := by decide
  have hl2 : (utf8Str "hello".toList).length = 5 := by decide
  rw [if_neg (by decide), htr, hl1, hl2]
  norm_num

lemma jaro_almni_bonjour : JaroSimilarity "almni".toList "bonjour".toList = 47/105 := by
  rw [JaroSimilarity]
  simp only []
  rw [if_neg (by decide)]
  have hscan : jaroScan (utf8Str "bonjour".toList)
      ((max (utf8Str "almni".toList).length (utf8Str "bonjour".toList).length : Int) / 2 - 1)
      (utf8Str "bonjour".toList).length (utf8Str "almni".toList) 0
      (List.replicate (utf8Str "bonjour".toList).length false)
      = ([false, false, false, true, false], [false, false, true, false, false, false, false], 1) := by decide
  rw [hscan]
  have htr : calculateTranspositions (utf8Str "almni".toList) (utf8Str "bonjour".toList)
      [false, false, false, true, false] [false, false, true, false, false, false, false] = 0 := by decide
  have hl1 : (utf8Str "almni".toList).length = 5 := by decide
  have hl2 : (utf8Str "bonjour".toList).length = 7 := by decide
  rw [if_neg (by decide), htr, hl1, hl2]
  norm_num

lemma jaro_almni_alumni : JaroSimilarity "almni".toList "alumni".toList = 17/18 := by
  rw [JaroSimilarity]
  simp only []
  rw [if_neg (by decide)]
  have hscan : jaroScan (utf8Str "alumni".toList)
      ((max (utf8Str "almni".toList).length (utf8Str "alumni".toList).length : Int) / 2 - 1)
      (utf8Str "alumni".toList).length (utf8Str "almni".toList) 0
      (List.replicate (utf8Str "alumni".toList).length false)
      = ([true, true, true, true, true], [true, true, false, true, true, true], 5) := by decide
  rw [hscan]
  have htr : calculateTranspositions (utf8Str "almni".toList) (utf8Str "alumni".toList)
      [true, true, true, true, true] [true, true, false, true, true, true] = 0 := by decide
  have hl1 : (utf8Str "almni".toList).length = 5 := by decide
  have hl2 : (utf8Str "alumni".toList).length = 6 := by decide
  rw [if_neg (by decide), htr, hl1, hl2]
  norm_num

/-- C9.  `SuggestWord` on the query `"almni"` with the candidates `"hi"`,
`"hello"`, `"bonjour"`, `"alumni"` and the Jaro similarity returns the
word `"alumni"` with likelihood `17/18`, which is within `1/1000` of
`0.944`. -/
theorem suggestWord_almni :
    (SuggestWord "almni".toList
      ["hi".toList, "hello".toList, "bonjour".toList, "alumni".toList]
      JaroSimilarity).word = "alumni".toList ∧
    |(SuggestWord "almni".toList
      ["hi".toList, "hello".toList, "bonjour".toList, "alumni".toList]
      JaroSimilarity).likelihood - 944/1000| < 1/1000 := by
  have hfold : SuggestWord "almni".toList
      ["hi".toList, "hello".toList, "bonjour".toList, "alumni".toList]
      JaroSimilarity = ⟨17/18, "alumni".toList⟩ := by
    rw [SuggestWord]
    simp only [List.foldl_cons, List.foldl_nil, suggestStep,
      jaro_almni_hi, jaro_almni_hello, jaro_almni_bonjour, jaro_almni_alumni]
    norm_num
  rw [hfold]
  constructor
  · rfl
  · rw [abs_lt]
    constructor <;> norm_num

/-- Number of set flags in a match-flag vector. -/
def countTrue (l : List Bool) : Nat := l.countP (fun b => b)

lemma countTrue_le_length (l : List Bool) : countTrue l ≤ l.length :=
  List.countP_le_length _

lemma countTrue_cons_true (l : List Bool) :
    countTrue (true :: l) = countTrue l + 1 := by
  simp [countTrue, List.countP_cons]

lemma countTrue_cons_false (l : List Bool) :
    countTrue (false :: l) = countTrue l := by
  simp [countTrue, List.countP_cons]

lemma countTrue_replicate_false (n : ℕ) :
    countTrue (List.replicate n false) = 0 := by
  simp [countTrue, List.countP_eq_zero, List.mem_replicate]

lemma countTrue_set_true : ∀ (l : List Bool) (j : Nat), j < l.length →
    l.getD j false = false → countTrue (l.set j true) = countTrue l + 1 := by
  intro l
  induction l with
  | nil =>
    intro j h
    simp at h
  | cons b l2 ih =>
    intro j hj hval
    cases j with
    | zero =>
      simp only [List.getD_cons_zero] at hval
      subst hval
      simp only [List.set_cons_zero, countTrue_cons_true, countTrue_cons_false]
    | succ j2 =>
      simp only [List.getD_cons_succ] at hval
      simp only [List.length_cons] at hj
      have := ih j2 (by omega) hval
      cases b <;>
        simp only [List.set_cons_succ, countTrue_cons_true, countTrue_cons_false, this]

lemma jaroFind_some {c : Nat} {tgt : List Nat} {tm : List Bool} {start stop j : Nat}
    (h : jaroFind c tgt tm start stop = some j) :
    j < stop ∧ tm.getD j false = false := by
  unfold jaroFind at h
  have hpred := List.find?_some h
  have hmem := List.mem_of_find?_eq_some h
  rw [List.mem_range'_1] at hmem
  simp only [Bool.and_eq_true, beq_iff_eq, Bool.not_eq_true'] at hpred
  exact ⟨by omega, hpred.2⟩

lemma jaroScan_spec (tgt : List Nat) (mmd : Int) :
    ∀ (inp : List Nat) (i : Nat) (tm : List Bool), tm.length = tgt.length →
      (jaroScan tgt mmd tgt.length inp i tm).1.length = inp.length ∧
      (jaroScan tgt mmd tgt.length inp i tm).2.1.length = tm.length ∧
      countTrue (jaroScan tgt mmd tgt.length inp i tm).2.1
        = countTrue tm + (jaroScan tgt mmd tgt.length inp i tm).2.2 ∧
      countTrue (jaroScan tgt mmd tgt.length inp i tm).1
        = (jaroScan tgt mmd tgt.length inp i tm).2.2 := by
  intro inp
  induction inp with
  | nil =>
    intro i tm hlen
    simp [jaroScan, countTrue]
  | cons c rest ih =>
    intro i tm hlen
    simp only [jaroScan]
    rcases hfind : jaroFind c tgt tm ((max 0 ((i : Int) - mmd)).toNat)
        ((min (tgt.length : Int) ((i : Int) + mmd + 1)).toNat) with _ | j
    · dsimp only
      have hr := ih (i + 1) tm hlen
      simp only [List.length_cons, countTrue_cons_false]
      refine ⟨?_, hr.2.1, hr.2.2.1, hr.2.2.2⟩
      have := hr.1
      omega
    · dsimp only
      obtain ⟨hjs, hjval⟩ := jaroFind_some hfind
      have hjlt : j < tm.length := by
        have h1 : (min (tgt.length : Int) ((i : Int) + mmd + 1)).toNat
            ≤ ((tgt.length : Int)).toNat :=
          Int.toNat_le_toNat (min_le_left _ _)
        simp only [Int.toNat_ofNat] at h1
        omega
      have hset : countTrue (tm.set j true) = countTrue tm + 1 :=
        countTrue_set_true tm j hjlt hjval
      have hlen2 : (tm.set j true).length = tgt.length := by
        rw [List.length_set]
        exact hlen
      have hr := ih (i + 1) (tm.set j true) hlen2
      simp only [List.length_cons, List.length_set, countTrue_cons_true] at hr ⊢
      refine ⟨by omega, by omega, by omega, by omega⟩

lemma transWalk_le : ∀ (xs ys : List (Nat × Bool)),
    transWalk xs ys ≤ countTrue (xs.map Prod.snd) := by
  intro xs
  induction xs with
  | nil =>
    intro ys
    simp [transWalk, countTrue]
  | cons p rest ih =>
    intro ys
    obtain ⟨c, m⟩ := p
    simp only [transWalk, List.map_cons]
    cases m
    · simp only [Bool.false_eq_true, ite_false, countTrue_cons_false]
      exact ih ys
    · simp only [ite_true, countTrue_cons_true]
      rcases hdrop : List.dropWhile (fun p => !p.2) ys with _ | ⟨⟨t1, t2⟩, tgtRest⟩
      · rw [hdrop]
        dsimp only
        omega
      · rw [hdrop]
        dsimp only
        have hrec := ih tgtRest
        have hone : (if c ≠ t1 then 1 else 0) ≤ 1 := by
          split <;> omega
        omega

lemma countTrue_map_snd_zip : ∀ (xs : List Nat) (ys : List Bool),
    xs.length = ys.length →
    countTrue ((xs.zip ys).map Prod.snd) = countTrue ys := by
  intro xs
  induction xs with
  | nil =>
    intro ys h
    cases ys
    · rfl
    · simp at h
  | cons x xs2 ih =>
    intro ys h
    cases ys with
    | nil => simp at h
    | cons b ys2 =>
      simp only [List.length_cons] at h
      simp only [List.zip_cons_cons, List.map_cons]
      cases b <;>
        simp only [countTrue_cons_true, countTrue_cons_false, ih ys2 (by omega)]

lemma jaro_formula_unit (m t la lb : ℕ) (hm : 1 ≤ m) (hla : m ≤ la)
    (hlb : m ≤ lb) (ht : t ≤ m) :
    0 ≤ ((m : ℚ) / (la : ℚ) + (m : ℚ) / (lb : ℚ)
      + ((m : ℚ) - (t : ℚ)) / (m : ℚ)) / 3 ∧
    ((m : ℚ) / (la : ℚ) + (m : ℚ) / (lb : ℚ)
      + ((m : ℚ) - (t : ℚ)) / (m : ℚ)) / 3 ≤ 1 := by
  have hla0 : (0:ℚ) < (la : ℚ) := by exact_mod_cast (by omega : 0 < la)
  have hlb0 : (0:ℚ) < (lb : ℚ) := by exact_mod_cast (by omega : 0 < lb)
  have hm0 : (0:ℚ) < (m : ℚ) := by exact_mod_cast (by omega : 0 < m)
  have e1 : (m:ℚ)/(la:ℚ) ≤ 1 := div_le_one_of_le (by exact_mod_cast hla) hla0.le
  have e2 : (m:ℚ)/(lb:ℚ) ≤ 1 := div_le_one_of_le (by exact_mod_cast hlb) hlb0.le
  have htm : (t:ℚ) ≤ (m:ℚ) := by exact_mod_cast ht
  have e3 : ((m:ℚ) - (t:ℚ))/(m:ℚ) ≤ 1 :=
    div_le_one_of_le (by linarith [Nat.cast_nonneg (α := ℚ) t]) hm0.le
  have p1 : 0 ≤ (m:ℚ)/(la:ℚ) := div_nonneg (Nat.cast_nonneg m) hla0.le
  have p2 : 0 ≤ (m:ℚ)/(lb:ℚ) := div_nonneg (Nat.cast_nonneg m) hlb0.le
  have p3 : 0 ≤ ((m:ℚ) - (t:ℚ))/(m:ℚ) :=
    div_nonneg (by linarith) hm0.le
  constructor
  · apply div_nonneg (by linarith) (by norm_num)
  · rw [div_le_one (by norm_num : (0:ℚ) < 3)]
    linarith

lemma jaroSimilarity_unit (a b : GoStr) :
    0 ≤ JaroSimilarity a b ∧ JaroSimilarity a b ≤ 1 := by
  rw [JaroSimilarity]
  simp only []
  split
  · norm_num
  · split
    · norm_num
    · rename_i heq hm
      have hspec := jaroScan_spec (utf8Str b)
        ((max (utf8Str a).length (utf8Str b).length : Int) / 2 - 1)
        (utf8Str a) 0 (List.replicate (utf8Str b).length false)
        (by simp)
      have hcz := countTrue_replicate_false (utf8Str b).length
      have hwalk := transWalk_le
        ((utf8Str a).zip (jaroScan (utf8Str b)
          ((max (utf8Str a).length (utf8Str b).length : Int) / 2 - 1)
          (utf8Str b).length (utf8Str a) 0
          (List.replicate (utf8Str b).length false)).1)
        ((utf8Str b).zip (jaroScan (utf8Str b)
          ((max (utf8Str a).length (utf8Str b).length : Int) / 2 - 1)
          (utf8Str b).length (utf8Str a) 0
          (List.replicate (utf8Str b).length false)).2.1)
      rw [countTrue_map_snd_zip _ _ (hspec.1.symm)] at hwalk
      have hmle := countTrue_le_length (jaroScan (utf8Str b)
          ((max (utf8Str a).length (utf8Str b).length : Int) / 2 - 1)
          (utf8Str b).length (utf8Str a) 0
          (List.replicate (utf8Str b).length false)).1
      have hmle2 := countTrue_le_length (jaroScan (utf8Str b)
          ((max (utf8Str a).length (utf8Str b).length : Int) / 2 - 1)
          (utf8Str b).length (utf8Str a) 0
          (List.replicate (utf8Str b).length false)).2.1
      refine jaro_formula_unit _ _ _ _ ?_ ?_ ?_ ?_
      · omega
      · rw [← hspec.2.2.2]
        rw [hspec.1] at hmle
        omega
      · have h3 := hspec.2.2.1
        rw [hcz] at h3
        rw [hspec.2.1, List.length_replicate] at hmle2
        omega
      · unfold calculateTranspositions
        have hdiv := Nat.div_le_self (transWalk
          ((utf8Str a).zip (jaroScan (utf8Str b)
            ((max (utf8Str a).length (utf8Str b).length : Int) / 2 - 1)
            (utf8Str b).length (utf8Str a) 0
            (List.replicate (utf8Str b).length false)).1)
          ((utf8Str b).zip (jaroScan (utf8Str b)
            ((max (utf8Str a).length (utf8Str b).length : Int) / 2 - 1)
            (utf8Str b).length (utf8Str a) 0
            (List.replicate (utf8Str b).length false)).2.1)) 2
        have h4 := hspec.2.2.2
        omega

lemma utf8Str_eq_nil_iff (a : GoStr) : utf8Str a = [] ↔ a = [] := by
  constructor
  · intro h
    cases a with
    | nil => rfl
    | cons c a2 =>
      rw [utf8Str_cons, utf8Char_decomp] at h
      simp at h
  · intro h
    rw [h]
    rfl

lemma calculateSimilarity_unit (a b : GoStr) (alg : GoStr → GoStr → Nat)
    (halg : alg a b ≤ (utf8Str a).length + (utf8Str b).length) :
    0 ≤ CalculateSimilarity a b alg ∧ CalculateSimilarity a b alg ≤ 1 := by
  rw [CalculateSimilarity]
  simp only []
  split
  · norm_num
  · rename_i heq
    have hpos : 1 ≤ (utf8Str a).length + (utf8Str b).length := by
      by_contra hle
      have h0 : (utf8Str a).length = 0 ∧ (utf8Str b).length = 0 := by omega
      have ha0 := List.length_eq_zero.mp h0.1
      have hb0 := List.length_eq_zero.mp h0.2
      rw [ha0, hb0] at heq
      exact heq rfl
    have hS : (0:ℚ) < ((utf8Str a).length : ℚ) + ((utf8Str b).length : ℚ) := by
      have : (1:ℚ) ≤ ((utf8Str a).length : ℚ) + ((utf8Str b).length : ℚ) := by
        exact_mod_cast hpos
      linarith
    have hfrac : (alg a b : ℚ) / (((utf8Str a).length : ℚ) + ((utf8Str b).length : ℚ)) ≤ 1 := by
      apply div_le_one_of_le ?_ hS.le
      have : ((alg a b : ℚ)) ≤ (((utf8Str a).length + (utf8Str b).length : ℕ) : ℚ) := by
        exact_mod_cast halg
      push_cast at this
      linarith
    have hfrac0 : 0 ≤ (alg a b : ℚ) / (((utf8Str a).length : ℚ) + ((utf8Str b).length : ℚ)) :=
      div_nonneg (Nat.cast_nonneg _) hS.le
    constructor
    · linarith
    · linarith

/-- C8.  Every similarity value lies in the closed unit interval: the
Jaro similarity always does, and the normalized similarity does for each
of the three distance functions. -/
theorem similarity_unit_interval (a b : GoStr) :
    (0 ≤ JaroSimilarity a b ∧ JaroSimilarity a b ≤ 1) ∧
    (0 ≤ CalculateSimilarity a b LevenshteinDistance ∧
      CalculateSimilarity a b LevenshteinDistance ≤ 1) ∧
    (0 ≤ CalculateSimilarity a b IndelDistance ∧
      CalculateSimilarity a b IndelDistance ≤ 1) ∧
    (0 ≤ CalculateSimilarity a b DamerauLevenshtein ∧
      CalculateSimilarity a b DamerauLevenshtein ≤ 1) := by
  refine ⟨jaroSimilarity_unit a b, ?_, ?_, ?_⟩
  · apply calculateSimilarity_unit
    rw [levenshteinDistance_eq_levRec]
    have h1 := levRec_le_sum (a.length + b.length) a b le_rfl
    have h2 := length_le_utf8Str a
    have h3 := length_le_utf8Str b
    omega
  · apply calculateSimilarity_unit
    unfold IndelDistance
    have h1 := indelRec_lcsLen ((utf8Str a).length + (utf8Str b).length)
      (utf8Str a) (utf8Str b) le_rfl
    omega
  · apply calculateSimilarity_unit
    unfold DamerauLevenshtein
    have h1 := (dlGo_bound ((utf8Str a).length + (utf8Str b).length)
      (utf8Str a) (utf8Str b) [] le_rfl cacheBounded_nil).1
    omega
